import Mathlib

/-! Barycenter reduction.

A shallow embedding of the mass-point algebra and of the pairwise reduction
loop of `concurrentBarycenter.go` and `linearBarycenter copy.go` (the two files
share these functions verbatim), of the ingestion of `concurrentBarycenter.go` (the
read loop, the scan of one line, and the goroutines as an interleaving transition
system) and of the ingestion of `linearBarycenter copy.go` (the `Fscanf` loop on the
file).  Coordinates and masses are rationals, so all arithmetic is exact.

The Go library calls the source makes (`bufio.Reader.ReadString`, `fmt.Sscanf`,
`fmt.Fscanf`, channels, `select`, `sync.WaitGroup`) are embedded after the behaviour the
Go documentation and the library source give them; each such definition says which call
it stands for.  The conversion of a token to a float64 is a parameter of the scanners.
-/

namespace Barycenter

/-- The Go struct `MassPoint { x, y, z, mass float64 }`, over exact rationals. -/
structure MassPoint where
  x : ℚ
  y : ℚ
  z : ℚ
  mass : ℚ
deriving DecidableEq, Repr

/-- Go `addMassPoint`: component-wise sum of all four fields. -/
def addMassPoint (a b : MassPoint) : MassPoint :=
  ⟨a.x + b.x, a.y + b.y, a.z + b.z, a.mass + b.mass⟩

/-- Go `avgMassPoint`: the coordinates of the sum are halved, the mass is not. -/
def avgMassPoint (a b : MassPoint) : MassPoint :=
  let sum := addMassPoint a b
  ⟨sum.x / 2, sum.y / 2, sum.z / 2, sum.mass⟩

/-- Go `toWeightedSubspace`: coordinates multiplied by the mass. -/
def toWeightedSubspace (a : MassPoint) : MassPoint :=
  ⟨a.x * a.mass, a.y * a.mass, a.z * a.mass, a.mass⟩

/-- Go `fromWeightedSubspace`: coordinates divided by the mass. -/
def fromWeightedSubspace (a : MassPoint) : MassPoint :=
  ⟨a.x / a.mass, a.y / a.mass, a.z / a.mass, a.mass⟩

/-- Go `avgMassPointWeighted`: map both points to the weighted subspace,
average them there, map the result back. -/
def avgMassPointWeighted (a b : MassPoint) : MassPoint :=
  let aWeighted := toWeightedSubspace a
  let bWeighted := toWeightedSubspace b
  fromWeightedSubspace (avgMassPoint aWeighted bWeighted)

/-- The inner loop of a round,
`for i := 0; i < len(masspoints)-1; i += 2 { newMassPoints = append(...) }`,
started at index `i` with `newMassPoints` as accumulated so far. -/
def pairLoop (masspoints : List MassPoint) (i : Nat) (newMassPoints : List MassPoint) :
    List MassPoint :=
  if h : i + 1 < masspoints.length then
    pairLoop masspoints (i + 2)
      (newMassPoints ++
        [avgMassPointWeighted (masspoints.get ⟨i, by omega⟩) (masspoints.get ⟨i + 1, h⟩)])
  else newMassPoints
termination_by masspoints.length - i

/-- One round of the reduction: the body of `for len(masspoints) != 1`.
Adjacent pairs are combined, and an odd last element is appended unchanged. -/
def foldRound (masspoints : List MassPoint) : List MassPoint :=
  let newMassPoints := pairLoop masspoints 0 []
  if h : masspoints.length % 2 ≠ 0 then
    newMassPoints ++ [masspoints.get ⟨masspoints.length - 1, by omega⟩]
  else newMassPoints

/-- The loop `for len(masspoints) != 1 { masspoints = round(masspoints) }`, run for
at most `fuel` rounds; `none` when the fuel is used up before one point is left. -/
def reductionLoop : Nat → List MassPoint → Option (List MassPoint)
  | 0, masspoints => if masspoints.length ≠ 1 then none else some masspoints
  | fuel + 1, masspoints =>
    if masspoints.length ≠ 1 then reductionLoop fuel (foldRound masspoints)
    else some masspoints

/-- The value `systemAverage := masspoints[0]` read after the reduction loop. -/
def systemAverage (fuel : Nat) (masspoints : List MassPoint) : Option MassPoint :=
  (reductionLoop fuel masspoints).bind fun s => s.head?

/-- Structural description of a round, used to reason about `foldRound`. -/
def pairUp : List MassPoint → List MassPoint
  | a :: b :: rest => avgMassPointWeighted a b :: pairUp rest
  | [a] => [a]
  | [] => []

/-- The combined pairs of a sequence, without the odd last element. -/
def pairsOnly : List MassPoint → List MassPoint
  | a :: b :: rest => avgMassPointWeighted a b :: pairsOnly rest
  | _ => []

/-- Sum of the masses of a sequence of points. -/
def totalMass (s : List MassPoint) : ℚ := (s.map fun p => p.mass).sum

/-- The mass-weighted centroid as the specification words it: each coordinate is
`(Σ coordinate_i * mass_i) / (Σ mass_i)`, and the mass is the total mass. -/
def specCentroid (s : List MassPoint) : MassPoint :=
  ⟨(s.map fun p => p.x * p.mass).sum / totalMass s,
   (s.map fun p => p.y * p.mass).sum / totalMass s,
   (s.map fun p => p.z * p.mass).sum / totalMass s,
   totalMass s⟩

/-- The combine operation as the specification words it: the direct mass-weighted
average of the two positions, with the masses summed. -/
def specCombine (a b : MassPoint) : MassPoint :=
  ⟨(a.x * a.mass + b.x * b.mass) / (a.mass + b.mass),
   (a.y * a.mass + b.y * b.mass) / (a.mass + b.mass),
   (a.z * a.mass + b.z * b.mass) / (a.mass + b.mass),
   a.mass + b.mass⟩

/-- The reduction loop of `reductionLoop`, returning the number of rounds it executed
instead of the sequence; `none` when the fuel is used up before one point is left. -/
def reductionRounds : Nat → List MassPoint → Option Nat
  | 0, masspoints => if masspoints.length ≠ 1 then none else some 0
  | fuel + 1, masspoints =>
    if masspoints.length ≠ 1 then
      (reductionRounds fuel (foldRound masspoints)).map fun rounds => rounds + 1
    else some 0

/-- The part of `main` that follows ingestion: `handle(errors.New("Insufficient values."))`
aborts the process when fewer than one point was loaded, otherwise the reduction loop
runs (with at most `fuel` rounds, `none` meaning the fuel ran out) and `masspoints[0]`
is reported. -/
def afterIngestion (fuel : Nat) (masspoints : List MassPoint) :
    Except String (Option MassPoint) :=
  if masspoints.length < 1 then Except.error "Insufficient values."
  else Except.ok (systemAverage fuel masspoints)

/-- Go `bufio.Reader.ReadString(delim)` on the unread input: the data up to and including
the first `delim`; when the input ends before a `delim` is found, the data read so far
together with a non-nil error.  The result is `(str, err != nil, input left unread)`. -/
def readString (delim : Char) : List Char → List Char × Bool × List Char
  | [] => ([], true, [])
  | c :: rest =>
    if c = delim then ([c], false, rest)
    else
      let r := readString delim rest
      (c :: r.1, r.2.1, r.2.2)

/-- The read loop of the concurrent `main`,
`for { str, err := r.ReadString('\n'); if len(str) == 0 || err != nil { break }; go ... }`,
returning the strings handed to `stringToPointAsync` in the order of the `go` statements;
`none` when `fuel` iterations were not enough to reach the `break`. -/
def readLoop : Nat → List Char → Option (List (List Char))
  | 0, _ => none
  | fuel + 1, input =>
    let r := readString '\n' input
    if r.1.length = 0 ∨ r.2.1 = true then some []
    else (readLoop fuel r.2.2).map fun strs => r.1 :: strs

/-- The text made of the given lines, each followed by a newline. -/
def terminatedLines (ls : List (List Char)) : List Char :=
  (ls.map fun l => l ++ ['\n']).flatten

/-- The scanner state of package fmt while a token is read: the token buffer and the
input not yet read. -/
abbrev Scan := List Char × List Char

/-- The rune class `isSpace` of package fmt. -/
def isSpace (c : Char) : Bool :=
  (0x09 ≤ c.toNat && c.toNat ≤ 0x0d) || c.toNat == 0x20 || c.toNat == 0x85 ||
  c.toNat == 0xa0 || c.toNat == 0x1680 || (0x2000 ≤ c.toNat && c.toNat ≤ 0x200a) ||
  c.toNat == 0x2028 || c.toNat == 0x2029 || c.toNat == 0x202f || c.toNat == 0x205f ||
  c.toNat == 0x3000

/-- Go `ss.SkipSpace` as run by `Sscanf`, where a newline is not a space: blanks are
skipped, a newline is the error "unexpected newline" (`none`). -/
def skipSpace : List Char → Option (List Char)
  | [] => some []
  | c :: rest =>
    if c = '\r' ∧ rest.head? = some '\n' then skipSpace rest
    else if c = '\n' then none
    else if !isSpace c then some (c :: rest)
    else skipSpace rest

def decimalDigits : List Char := ['0', '1', '2', '3', '4', '5', '6', '7', '8', '9']

def hexadecimalDigits : List Char :=
  ['0', '1', '2', '3', '4', '5', '6', '7', '8', '9',
   'a', 'A', 'b', 'B', 'c', 'C', 'd', 'D', 'e', 'E', 'f', 'F']

/-- Go `ss.accept(ok)`: when the next rune is in `ok` it is moved to the token buffer. -/
def accept (ok : List Char) (s : Scan) : Bool × Scan :=
  match s.2 with
  | c :: rest => if c ∈ ok then (true, (s.1 ++ [c], rest)) else (false, s)
  | [] => (false, s)

/-- Go `s.accept(a) && s.accept(b) && s.accept(c)`. -/
def accept3 (a b c : List Char) (s : Scan) : Bool × Scan :=
  let r1 := accept a s
  if r1.1 then
    let r2 := accept b r1.2
    if r2.1 then accept c r2.2 else (false, r2.2)
  else (false, r1.2)

/-- Go `for s.accept(ok) {}`. -/
def acceptRun (ok : List Char) (buf : List Char) : List Char → Scan
  | c :: rest => if c ∈ ok then acceptRun ok (buf ++ [c]) rest else (buf, c :: rest)
  | [] => (buf, [])

/-- Go `s.accept("0") && s.accept("xX")`: the test for a hexadecimal prefix. -/
def acceptHexPrefix (s : Scan) : Bool × Scan :=
  let zero := accept ['0'] s
  if zero.1 then accept ['x', 'X'] zero.2 else (false, zero.2)

/-- The second half of Go `ss.floatToken`: digits, optional fraction, optional exponent,
with the digit and exponent alphabets chosen by the hexadecimal prefix test. -/
def floatTokenDigits (hex : Bool) (s : Scan) : Scan :=
  let digits := if hex then hexadecimalDigits ++ ['_'] else decimalDigits ++ ['_']
  let exp := if hex then ['p', 'P'] else ['e', 'E', 'p', 'P']
  let s2 := acceptRun digits s.1 s.2
  let period := accept ['.'] s2
  let s3 := if period.1 then acceptRun digits period.2.1 period.2.2 else period.2
  let e := accept exp s3
  if e.1 then
    let s4 := (accept ['+', '-'] e.2).2
    acceptRun (decimalDigits ++ ['_']) s4.1 s4.2
  else e.2

/-- Go `ss.floatToken`: the longest prefix of the input shaped like a floating-point
literal (possibly empty or ill-formed), and the input after it. -/
def floatToken (input : List Char) : Scan :=
  let nan := accept3 ['n', 'N'] ['a', 'A'] ['n', 'N'] ([], input)
  if nan.1 then nan.2
  else
    let s1 := (accept ['+', '-'] nan.2).2
    let inf := accept3 ['i', 'I'] ['n', 'N'] ['f', 'F'] s1
    if inf.1 then inf.2
    else
      let hex := acceptHexPrefix inf.2
      floatTokenDigits hex.1 hex.2

/-- A leading sign: whether it is a minus, and the text after it. -/
def stripSign : List Char → Bool × List Char
  | '-' :: rest => (true, rest)
  | '+' :: rest => (false, rest)
  | s => (false, s)

/-- Reads a run of decimal digits: the number read so far, how many digits were read,
and the text after the run. -/
def readDigits (value count : Nat) : List Char → Nat × Nat × List Char
  | c :: rest =>
    if c.isDigit then readDigits (10 * value + (c.toNat - '0'.toNat)) (count + 1) rest
    else (value, count, c :: rest)
  | [] => (value, count, [])

/-- The conversion of a token to a number, used where a concrete conversion is needed.
On a decimal literal `[+-] digits [. digits] [(e|E) [+-] digits]` with at least one mantissa
digit the result `(m, e)` stands for the exact value `m * 10 ^ e`; every other token,
the empty one included, is rejected.  It agrees with the conversion of package fmt
(`ss.convertFloat`, which calls `strconv.ParseFloat`) on every token without a digit
that is not a spelling of `NaN` or `Inf` (both reject it) and on plain literals
`[+-] digits [. digits]` of float64 range (both accept it, with the same value up to
rounding).  It does not agree elsewhere: the library also gives a value to `NaN`, `Inf`,
hexadecimal literals, binary exponents (`p`) and literals with `_` between digits, and
it rejects literals beyond the float64 range.  For that reason every general statement
about scanning below is made for an arbitrary conversion, and this one is used only at
explicit lines all of whose tokens are of the two kinds on which it agrees. -/
def parseDecimal (token : List Char) : Option (Int × Int) :=
  let sg := stripSign token
  let ip := readDigits 0 0 sg.2
  let fp := match ip.2.2 with
    | '.' :: rest => readDigits ip.1 0 rest
    | rest => (ip.1, 0, rest)
  if ip.2.1 + fp.2.1 = 0 then none
  else
    let mant : Int := if sg.1 then -(fp.1 : Int) else (fp.1 : Int)
    match fp.2.2 with
    | [] => some (mant, -(fp.2.1 : Int))
    | c :: rest =>
      if c = 'e' ∨ c = 'E' then
        let es := stripSign rest
        let ed := readDigits 0 0 es.2
        if ed.2.1 = 0 ∨ ed.2.2 ≠ [] then none
        else some (mant, (if es.1 then -(ed.1 : Int) else (ed.1 : Int)) - (fp.2.1 : Int))
      else none

/-- The exact rational `m * 10 ^ e`. -/
def decimalValue (d : Int × Int) : ℚ :=
  if 0 ≤ d.2 then (d.1 : ℚ) * 10 ^ d.2.toNat else (d.1 : ℚ) / 10 ^ (-d.2).toNat

/-- The point made of four scanned numbers, in the order of the operands
`&newMassPoint.x, &newMassPoint.y, &newMassPoint.z, &newMassPoint.mass`. -/
def decimalPoint (f : (Int × Int) × (Int × Int) × (Int × Int) × (Int × Int)) : MassPoint :=
  ⟨decimalValue f.1, decimalValue f.2.1, decimalValue f.2.2.1, decimalValue f.2.2.2⟩

/-- The verb `%f` of `Sscanf` with a `*float64` operand: `SkipSpace`, `notEOF`,
`floatToken`, then the conversion of the token, `convertFloat`, which is a parameter:
it stands for `ss.convertFloat(token, 64)`, with `none` for a conversion error, and `β`
for the type of its values.  The result is the number and the input left after the
token; `none` is a scan error. -/
def scanFloat {β : Type} (convertFloat : List Char → Option β) (input : List Char) :
    Option (β × List Char) :=
  match skipSpace input with
  | none => none
  | some [] => none
  | some (c :: rest) =>
    let t := floatToken (c :: rest)
    (convertFloat t.1).map fun d => (d, t.2)

/-- A literal rune of the format: the next input rune must be that rune. -/
def matchLiteral (lit : Char) : List Char → Option (List Char)
  | c :: rest => if c = lit then some rest else none
  | [] => none

/-- Go `fmt.Sscanf(s, "%f:%f:%f:%f", ...)`: the four numbers, or `none` on error.  The
input left after the fourth number is not examined. -/
def sscanf4 {β : Type} (convertFloat : List Char → Option β) (s : List Char) :
    Option (β × β × β × β) :=
  (scanFloat convertFloat s).bind fun f1 =>
  (matchLiteral ':' f1.2).bind fun r1 =>
  (scanFloat convertFloat r1).bind fun f2 =>
  (matchLiteral ':' f2.2).bind fun r2 =>
  (scanFloat convertFloat r2).bind fun f3 =>
  (matchLiteral ':' f3.2).bind fun r3 =>
  (scanFloat convertFloat r3).map fun f4 => (f1.1, f2.1, f3.1, f4.1)

/-- The value `stringToPointAsync` sends on the channel, if any, with the conversion
`parseDecimal`: the point scanned from the line by `Sscanf` (fields in the order `x`,
`y`, `z`, `mass`), or nothing when `Sscanf` reports an error. -/
def stringToPoint (s : List Char) : Option MassPoint :=
  (sscanf4 parseDecimal s).map decimalPoint

/-- Go `ss.SkipSpace` on a stream, as run by `Fscanf`: whether it ended in the error
"unexpected newline", and the input from the rune it stopped at.  That rune has been read
from the stream, whether it is the newline or the first rune that is not a space. -/
def skipSpaceStream : List Char → Bool × List Char
  | [] => (false, [])
  | c :: rest =>
    if c = '\r' ∧ rest.head? = some '\n' then skipSpaceStream rest
    else if c = '\n' then (true, c :: rest)
    else if !isSpace c then (false, c :: rest)
    else skipSpaceStream rest

/-- Whether `ss.floatToken` ends with a rune that was read and not accepted: always,
except when it returns right after the letters of `NaN` or `Inf`. -/
def floatTokenPeeks (input : List Char) : Bool :=
  let nan := accept3 ['n', 'N'] ['a', 'A'] ['n', 'N'] ([], input)
  if nan.1 then false
  else
    let s1 := (accept ['+', '-'] nan.2).2
    let inf := accept3 ['i', 'I'] ['n', 'N'] ['f', 'F'] s1
    !inf.1

/-- How the scan of one `%f` ends on a stream: with a number, the input after its token
and whether the first rune of that input has already been read; at end of input
(`io.EOF`); or with an error, and then with the input that is left unread. -/
inductive FieldEnd (β : Type) where
  | got (v : β) (rest : List Char) (peeked : Bool)
  | eof
  | failed (unread : List Char)

/-- The verb `%f` of `Fscanf` on a reader without `UnreadRune`, such as `*os.File`: a
rune that was read and put back is lost when the call returns, so an error leaves the
stream after the rune at which the scan stopped. -/
def fscanFloat {β : Type} (convertFloat : List Char → Option β) (input : List Char) :
    FieldEnd β :=
  let sp := skipSpaceStream input
  if sp.1 then FieldEnd.failed sp.2.tail
  else
    match sp.2 with
    | [] => FieldEnd.eof
    | c :: rest =>
      let t := floatToken (c :: rest)
      let peeked := floatTokenPeeks (c :: rest)
      match convertFloat t.1 with
      | none => FieldEnd.failed (if peeked then t.2.tail else t.2)
      | some v => FieldEnd.got v t.2 peeked

/-- The verb `%f` followed by the literal `:` of the format, on a stream: the literal is
read with `mustReadRune`, so the end of input is an error other than `io.EOF`, and a
rune that is not the colon is read, put back, and lost with the call. -/
def fscanFloatColon {β : Type} (convertFloat : List Char → Option β) (input : List Char) :
    FieldEnd β :=
  match fscanFloat convertFloat input with
  | FieldEnd.got v (c :: rest) _ =>
    if c = ':' then FieldEnd.got v rest false else FieldEnd.failed rest
  | FieldEnd.got _ [] _ => FieldEnd.failed []
  | FieldEnd.eof => FieldEnd.eof
  | FieldEnd.failed unread => FieldEnd.failed unread

/-- How one call `fmt.Fscanf(file, "%f:%f:%f:%f", ...)` ends: with four numbers and
`err == nil`, with `err == io.EOF`, or with another error. -/
inductive ScanEnd (β : Type) where
  | values (v : β × β × β × β)
  | eof
  | failed
deriving DecidableEq

/-- One call `fmt.Fscanf(file, "%f:%f:%f:%f", ...)` on the unread part of the file: how
it ends, and what is left unread afterwards. -/
def fscanf4 {β : Type} (convertFloat : List Char → Option β) (file : List Char) :
    ScanEnd β × List Char :=
  match fscanFloatColon convertFloat file with
  | FieldEnd.eof => (ScanEnd.eof, [])
  | FieldEnd.failed unread => (ScanEnd.failed, unread)
  | FieldEnd.got x r1 _ =>
    match fscanFloatColon convertFloat r1 with
    | FieldEnd.eof => (ScanEnd.eof, [])
    | FieldEnd.failed unread => (ScanEnd.failed, unread)
    | FieldEnd.got y r2 _ =>
      match fscanFloatColon convertFloat r2 with
      | FieldEnd.eof => (ScanEnd.eof, [])
      | FieldEnd.failed unread => (ScanEnd.failed, unread)
      | FieldEnd.got z r3 _ =>
        match fscanFloat convertFloat r3 with
        | FieldEnd.eof => (ScanEnd.eof, [])
        | FieldEnd.failed unread => (ScanEnd.failed, unread)
        | FieldEnd.got m r4 peeked =>
          (ScanEnd.values (x, y, z, m), if peeked then r4.tail else r4)

/-- The read loop of the sequential `main`,
`for { _, err = fmt.Fscanf(file, ...); if err == io.EOF { break } else if err != nil
{ continue }; masspoints = append(masspoints, newMassPoint) }`, run for at most `fuel`
calls of `Fscanf`; `none` when the fuel is used up before the `break`. -/
def sequentialScan {β : Type} (convertFloat : List Char → Option β) :
    Nat → List Char → List (β × β × β × β) → Option (List (β × β × β × β))
  | 0, _, _ => none
  | fuel + 1, file, masspoints =>
    match fscanf4 convertFloat file with
    | (ScanEnd.eof, _) => some masspoints
    | (ScanEnd.failed, unread) => sequentialScan convertFloat fuel unread masspoints
    | (ScanEnd.values v, unread) =>
      sequentialScan convertFloat fuel unread (masspoints ++ [v])

/-- The points the sequential `main` loads from a file, with the conversion
`parseDecimal`. -/
def sequentialLoad (fuel : Nat) (file : List Char) : Option (List MassPoint) :=
  (sequentialScan parseDecimal fuel file []).map fun vs => vs.map decimalPoint

/-- Where one goroutine `stringToPointAsync(s, c, wg)` stands: before `Sscanf`, at the
send `c <- newMassPoint`, at the deferred `wg.Done()`, or returned.  The type `α` is the
type of the values sent on the channel. -/
inductive Parser (α : Type) where
  | scanning (s : List Char)
  | sending (p : α)
  | exiting
  | finished

/-- Where the goroutine `func() { wg.Wait(); syncChan <- false }()` stands: not yet
started, blocked in `wg.Wait()`, blocked at the send on `syncChan`, or returned. -/
inductive Waiter where
  | notStarted
  | waiting
  | signalling
  | finished
deriving DecidableEq

/-- Where `main` stands during ingestion: in the read loop with the strings it has still
to hand over, at the test `run || len(masspointsChan) > 0`, blocked in the `select`, or
past the receive loop. -/
inductive MainPC where
  | reading (strs : List (List Char))
  | loopTest
  | atSelect
  | loaded
deriving DecidableEq

/-- The shared state of the concurrent ingestion: the parse goroutines in the order of
their `go` statements, the contents of the buffered `masspointsChan`, the counter of the
wait group, the waiter goroutine, the position of `main`, its variables `run` and
`masspoints`, and the number of sends completed on `syncChan`. -/
structure State (α : Type) where
  parsers : List (Parser α)
  masspointsChan : List α
  wg : Nat
  waiter : Waiter
  pc : MainPC
  run : Bool
  masspoints : List α
  syncSends : Nat

/-- The goroutine after `Sscanf` on its string: on success it goes on to send the
point, on error it returns at once (`if err != nil { return }`).  The outcome of
`Sscanf` on a string is the parameter `scan`, with `none` for `err != nil`. -/
def Parser.afterScan {α : Type} (scan : List Char → Option α) (str : List Char) : Parser α :=
  match scan str with
  | some p => Parser.sending p
  | none => Parser.exiting

/-- The capacity of `masspointsChan`, from `make(chan MassPoint, 128)`. -/
def chanCapacity : Nat := 128

/-- The atomic steps the scheduler can choose from: an iteration of the read loop that
starts a parse goroutine, the end of the read loop that starts the waiter, the scan, the
send and the `wg.Done()` of parse goroutine `i`, the return of `wg.Wait()`, the loop test
of `main`, and the two cases of its `select`. -/
inductive Action where
  | spawn
  | startWaiter
  | scan (i : Nat)
  | send (i : Nat)
  | done (i : Nat)
  | wake
  | test
  | recvPoint
  | recvSync
deriving DecidableEq

/-- The state before the read loop, for the strings that `ReadString` will deliver. -/
def initState {α : Type} (strs : List (List Char)) : State α :=
  { parsers := [], masspointsChan := [], wg := 0, waiter := Waiter.notStarted,
    pc := MainPC.reading strs, run := true, masspoints := [], syncSends := 0 }

/-- One atomic step; `none` when the action is not enabled in the state (the goroutine
is elsewhere or blocked).  A send on the buffered channel needs room, a receive needs a
value, `wg.Wait()` returns at counter zero, and the unbuffered `syncChan` passes its
value only when the waiter is at its send and `main` is in the `select`. -/
def step {α : Type} (scan : List Char → Option α) (s : State α) : Action → Option (State α)
  | Action.spawn =>
    match s.pc with
    | MainPC.reading (str :: rest) =>
      some { s with parsers := s.parsers ++ [Parser.scanning str], wg := s.wg + 1,
                    pc := MainPC.reading rest }
    | _ => none
  | Action.startWaiter =>
    match s.pc, s.waiter with
    | MainPC.reading [], Waiter.notStarted =>
      some { s with waiter := Waiter.waiting, pc := MainPC.loopTest, run := true }
    | _, _ => none
  | Action.scan i =>
    match s.parsers[i]? with
    | some (Parser.scanning str) =>
      some { s with parsers := s.parsers.set i (Parser.afterScan scan str) }
    | _ => none
  | Action.send i =>
    match s.parsers[i]? with
    | some (Parser.sending p) =>
      if s.masspointsChan.length < chanCapacity then
        some { s with parsers := s.parsers.set i Parser.exiting,
                      masspointsChan := s.masspointsChan ++ [p] }
      else none
    | _ => none
  | Action.done i =>
    match s.parsers[i]? with
    | some Parser.exiting =>
      if 0 < s.wg then
        some { s with parsers := s.parsers.set i Parser.finished, wg := s.wg - 1 }
      else none
    | _ => none
  | Action.wake =>
    match s.waiter with
    | Waiter.waiting => if s.wg = 0 then some { s with waiter := Waiter.signalling } else none
    | _ => none
  | Action.test =>
    match s.pc with
    | MainPC.loopTest =>
      some { s with pc := if s.run || decide (0 < s.masspointsChan.length)
                          then MainPC.atSelect else MainPC.loaded }
    | _ => none
  | Action.recvPoint =>
    match s.pc, s.masspointsChan with
    | MainPC.atSelect, val :: rest =>
      some { s with masspoints := s.masspoints ++ [val], masspointsChan := rest,
                    pc := MainPC.loopTest }
    | _, _ => none
  | Action.recvSync =>
    match s.pc, s.waiter with
    | MainPC.atSelect, Waiter.signalling =>
      some { s with run := false, waiter := Waiter.finished,
                    syncSends := s.syncSends + 1, pc := MainPC.loopTest }
    | _, _ => none

/-- Runs a schedule, a finite sequence of actions; `none` when one of them is not
enabled at its turn. -/
def exec {α : Type} (scan : List Char → Option α) (s : State α) :
    List Action → Option (State α)
  | [] => some s
  | a :: as => (step scan s a).bind fun s' => exec scan s' as

/-- What a parse goroutine will still put on the channel. -/
def Parser.pending {α : Type} (scan : List Char → Option α) : Parser α → Multiset α
  | Parser.scanning s => ((scan s).toList : Multiset α)
  | Parser.sending p => {p}
  | _ => 0

/-- One for a goroutine that has not yet called `wg.Done()`, zero otherwise. -/
def Parser.active {α : Type} : Parser α → Nat
  | Parser.finished => 0
  | _ => 1

/-- The strings `main` has still to hand over. -/
def MainPC.unread : MainPC → List (List Char)
  | MainPC.reading strs => strs
  | _ => []

/-- Termination weight of a parse goroutine. -/
def Parser.weight {α : Type} : Parser α → Nat
  | Parser.scanning _ => 5
  | Parser.sending _ => 4
  | Parser.exiting => 1
  | Parser.finished => 0

/-- Termination weight of the waiter. -/
def Waiter.weight : Waiter → Nat
  | Waiter.notStarted => 5
  | Waiter.waiting => 4
  | Waiter.signalling => 3
  | Waiter.finished => 0

/-- Termination weight of `main`. -/
def MainPC.weight : MainPC → Nat
  | MainPC.reading strs => 6 * strs.length + 2
  | MainPC.loopTest => 1
  | MainPC.atSelect => 0
  | MainPC.loaded => 0

/-- A bound on the number of steps the system can still take: every step lowers it. -/
def State.weight {α : Type} (s : State α) : Nat :=
  (s.parsers.map Parser.weight).sum + 2 * s.masspointsChan.length + s.waiter.weight
    + s.pc.weight

/-- The invariant of the ingestion started on `strs`: no point is lost or duplicated,
the counter counts the goroutines that have not called `Done`, the waiter exists exactly
after the read loop, it passes `Wait` only at counter zero, `run` is cleared exactly by
the one receive on `syncChan`, and `main` is in the `select` only while something can
still arrive. -/
structure Inv {α : Type} (scan : List Char → Option α) (strs : List (List Char))
    (s : State α) : Prop where
  conserve : (s.masspoints : Multiset α) + (s.masspointsChan : Multiset α)
      + (s.parsers.map (Parser.pending scan)).sum
      + ((s.pc.unread.filterMap scan : List α) : Multiset α)
    = ((strs.filterMap scan : List α) : Multiset α)
  counter : s.wg = (s.parsers.map Parser.active).sum
  started : s.waiter = Waiter.notStarted ↔ ∃ rest, s.pc = MainPC.reading rest
  passed : s.waiter = Waiter.signalling ∨ s.waiter = Waiter.finished → s.wg = 0
  cleared : s.run = false ↔ s.waiter = Waiter.finished
  sends : s.syncSends = if s.waiter = Waiter.finished then 1 else 0
  selecting : s.pc = MainPC.atSelect → s.run = true ∨ s.masspointsChan ≠ []
  drained : s.pc = MainPC.loaded → s.run = false ∧ s.masspointsChan = []

/-- A schedule for three lines in which the third line is parsed and sent first: all
goroutines are started, each scans, the third and the first send, all call `Done`, the
waiter wakes, and `main` receives a point, the completion signal and the other point. -/
def sampleSchedule : List Action :=
  [Action.spawn, Action.spawn, Action.spawn, Action.startWaiter, Action.scan 0, Action.scan 1,
   Action.scan 2, Action.send 2, Action.send 0, Action.done 0, Action.done 1, Action.done 2,
   Action.wake, Action.test, Action.recvPoint, Action.test, Action.recvSync, Action.test,
   Action.recvPoint, Action.test]

/-- The state in which `sampleSchedule` ends when the first and third line scan as
`p1` and `p3` and the second line does not scan. -/
def sampleFinal {α : Type} (p1 p3 : α) : State α :=
  { parsers := [Parser.finished, Parser.finished, Parser.finished], masspointsChan := [],
    wg := 0, waiter := Waiter.finished, pc := MainPC.loaded, run := false,
    masspoints := [p3, p1], syncSends := 1 }

/-! ## Auxiliary lemmas -/

theorem pairLoop_eq (s : List MassPoint) (i : Nat) (acc : List MassPoint) :
    pairLoop s i acc = acc ++ pairsOnly (s.drop i) := by
  induction i, acc using pairLoop.induct s with
  | case1 i acc h ih =>
    rw [pairLoop, dif_pos h, ih]
    have h1 : s.drop i = s[i] :: s[i+1] :: s.drop (i + 2) := by
      rw [List.drop_eq_getElem_cons (by omega : i < s.length)]
      rw [List.drop_eq_getElem_cons (by omega : i + 1 < s.length)]
    rw [h1]
    simp [pairsOnly]
  | case2 i acc h =>
    rw [pairLoop, dif_neg h]
    have : pairsOnly (s.drop i) = [] := by
      rcases hd : s.drop i with _ | ⟨a, _ | ⟨b, rest⟩⟩
      · rfl
      · rfl
      · have := congrArg List.length hd
        simp at this
        omega
    simp [this]

theorem get_last_cons_cons (a b : MassPoint) (rest : List MassPoint)
    (h1 : (a :: b :: rest).length - 1 < (a :: b :: rest).length)
    (h2 : rest.length - 1 < rest.length) :
    (a :: b :: rest).get ⟨(a :: b :: rest).length - 1, h1⟩
      = rest.get ⟨rest.length - 1, h2⟩ := by
  have e : (a :: b :: rest).length - 1 = (rest.length - 1) + 1 + 1 := by
    simp only [List.length_cons]; omega
  simp only [List.get_eq_getElem, e, List.getElem_cons_succ]

theorem pairsOnly_append_last (s : List MassPoint) :
    pairsOnly s ++
      (if h : s.length % 2 ≠ 0 then [s.get ⟨s.length - 1, by omega⟩] else [])
      = pairUp s := by
  induction s using pairUp.induct with
  | case1 a b rest ih =>
    by_cases h : rest.length % 2 ≠ 0
    · have h' : (a :: b :: rest).length % 2 ≠ 0 := by
        simp only [List.length_cons]; omega
      rw [dif_pos h] at ih
      rw [dif_pos h', get_last_cons_cons a b rest (by simp) (by omega)]
      simp only [pairsOnly, pairUp, List.cons_append, ih]
    · have h' : ¬ (a :: b :: rest).length % 2 ≠ 0 := by
        simp only [List.length_cons]; omega
      rw [dif_neg h] at ih
      rw [dif_neg h']
      simp only [pairsOnly, pairUp, List.cons_append, ih]
  | case2 a => simp [pairsOnly, pairUp]
  | case3 => simp [pairsOnly, pairUp]

theorem foldRound_eq_pairUp (s : List MassPoint) : foldRound s = pairUp s := by
  rw [← pairsOnly_append_last s]
  unfold foldRound
  simp only [pairLoop_eq, List.drop_zero, List.nil_append]
  split <;> simp

theorem length_pairUp (s : List MassPoint) : (pairUp s).length = (s.length + 1) / 2 := by
  induction s using pairUp.induct with
  | case1 a b rest ih => simp only [pairUp, List.length_cons, ih]; omega
  | case2 a => simp [pairUp]
  | case3 => simp [pairUp]

theorem totalMass_pairUp (s : List MassPoint) : totalMass (pairUp s) = totalMass s := by
  induction s using pairUp.induct with
  | case1 a b rest ih =>
    simp only [totalMass, pairUp, List.map_cons, List.sum_cons] at ih ⊢
    rw [ih]
    simp only [avgMassPointWeighted, fromWeightedSubspace, avgMassPoint, addMassPoint,
      toWeightedSubspace]
    ring
  | case2 a => rfl
  | case3 => rfl

theorem reductionLoop_succ_of_some (fuel : Nat) :
    ∀ (s r : List MassPoint), reductionLoop fuel s = some r →
      reductionLoop (fuel + 1) s = some r := by
  induction fuel with
  | zero =>
    intro s r h
    simp only [reductionLoop] at h ⊢
    split at h
    · cases h
    · rename_i h1
      rw [if_neg h1]; exact h
  | succ n ih =>
    intro s r h
    rw [reductionLoop] at h ⊢
    split at h
    · rename_i h1
      rw [if_pos h1]; exact ih _ _ h
    · rename_i h1
      rw [if_neg h1]; exact h

theorem reductionLoop_mono (fuel k : Nat) (s r : List MassPoint)
    (h : reductionLoop fuel s = some r) : reductionLoop (fuel + k) s = some r := by
  induction k with
  | zero => exact h
  | succ k ih => exact reductionLoop_succ_of_some _ _ _ ih

theorem reductionLoop_terminates (fuel : Nat) :
    ∀ s : List MassPoint, s ≠ [] → s.length ≤ fuel + 1 →
      ∃ p, reductionLoop fuel s = some [p] ∧ p.mass = totalMass s := by
  induction fuel with
  | zero =>
    intro s hs hl
    match s, hs, hl with
    | [p], _, _ => exact ⟨p, by simp [reductionLoop], by simp [totalMass]⟩
    | _ :: _ :: _, _, hl => simp at hl
  | succ n ih =>
    intro s hs hl
    match s, hs, hl with
    | [p], _, _ => exact ⟨p, by simp [reductionLoop], by simp [totalMass]⟩
    | a :: b :: rest, _, hl =>
      have hlen : (pairUp (a :: b :: rest)).length = (rest.length + 2 + 1) / 2 := by
        rw [length_pairUp]; simp
      have hne : pairUp (a :: b :: rest) ≠ [] := by simp [pairUp]
      have hle : (pairUp (a :: b :: rest)).length ≤ n + 1 := by
        rw [hlen]; simp only [List.length_cons] at hl; omega
      obtain ⟨p, hp, hm⟩ := ih _ hne hle
      refine ⟨p, ?_, ?_⟩
      · rw [reductionLoop, if_pos (by simp), foldRound_eq_pairUp]; exact hp
      · rw [hm, totalMass_pairUp]

theorem reductionLoop_deterministic (f1 f2 : Nat) (s r1 r2 : List MassPoint)
    (h1 : reductionLoop f1 s = some r1) (h2 : reductionLoop f2 s = some r2) : r1 = r2 := by
  have e1 := reductionLoop_mono f1 f2 s r1 h1
  have e2 := reductionLoop_mono f2 f1 s r2 h2
  rw [Nat.add_comm] at e2
  rw [e1] at e2
  exact Option.some.inj e2

theorem systemAverage_mono (fuel k : Nat) (s : List MassPoint) (p : MassPoint)
    (h : systemAverage fuel s = some p) : systemAverage (k + fuel) s = some p := by
  unfold systemAverage at h ⊢
  cases hr : reductionLoop fuel s with
  | none => rw [hr] at h; cases h
  | some r =>
    rw [hr] at h
    rw [Nat.add_comm, reductionLoop_mono fuel k s r hr]
    exact h

theorem pairUp_getElem (s : List MassPoint) :
    ∀ (i : Nat) (h : 2 * i + 1 < s.length),
      (pairUp s)[i]? = some (avgMassPointWeighted (s.get ⟨2 * i, by omega⟩)
        (s.get ⟨2 * i + 1, h⟩)) := by
  induction s using pairUp.induct with
  | case1 a b rest ih =>
    intro i h
    cases i with
    | zero => simp [pairUp]
    | succ j =>
      have hj : 2 * j + 1 < rest.length := by
        simp only [List.length_cons] at h; omega
      have e : 2 * (j + 1) = 2 * j + 1 + 1 := by omega
      simp only [pairUp, List.getElem?_cons_succ, ih j hj, List.get_eq_getElem, e,
        List.getElem_cons_succ]
  | case2 a => intro i h; simp at h
  | case3 => intro i h; simp at h

theorem pairUp_getElem_last (s : List MassPoint) (h : s.length % 2 = 1) :
    (pairUp s)[s.length / 2]? = some (s.get ⟨s.length - 1, by omega⟩) := by
  induction s using pairUp.induct with
  | case1 a b rest ih =>
    have hr : rest.length % 2 = 1 := by
      simp only [List.length_cons] at h; omega
    have e : (a :: b :: rest).length / 2 = rest.length / 2 + 1 := by
      simp only [List.length_cons]; omega
    rw [get_last_cons_cons a b rest (by simp) (by omega), e]
    simp only [pairUp, List.getElem?_cons_succ, ih hr]
  | case2 a => simp [pairUp]
  | case3 => simp at h

/-! ## The combine operation -/

/-- C2 (the code departs from the claim): for `A = (1, 2, 3)` of mass 1 and
`B = (3, 4, 5)` of mass 3 the direct mass-weighted average of the positions is
`(5/2, 7/2, 9/2)`, while `avgMassPointWeighted A B` is `(5/4, 7/4, 9/4)`: the halving
done by `avgMassPoint` in the weighted subspace is never undone. -/
theorem avgMassPointWeighted_halves_weighted_average :
    avgMassPointWeighted ⟨1, 2, 3, 1⟩ ⟨3, 4, 5, 3⟩ = ⟨5 / 4, 7 / 4, 9 / 4, 4⟩ ∧
    specCombine ⟨1, 2, 3, 1⟩ ⟨3, 4, 5, 3⟩ = ⟨5 / 2, 7 / 2, 9 / 2, 4⟩ ∧
    avgMassPointWeighted ⟨1, 2, 3, 1⟩ ⟨3, 4, 5, 3⟩ ≠ specCombine ⟨1, 2, 3, 1⟩ ⟨3, 4, 5, 3⟩ := by
  refine ⟨?_, ?_, ?_⟩ <;>
    simp only [avgMassPointWeighted, fromWeightedSubspace, avgMassPoint, addMassPoint,
      toWeightedSubspace, specCombine, ne_eq, MassPoint.mk.injEq] <;>
    norm_num

/-- C3: for all points `A` and `B`, with no condition on the masses, the mass of
`avgMassPointWeighted A B` is `A.mass + B.mass`. -/
theorem avgMassPointWeighted_mass (a b : MassPoint) :
    (avgMassPointWeighted a b).mass = a.mass + b.mass := rfl

/-- C6 (the code departs from the claim): combine is not associative on the code.
With `A = (4, 0, 0)`, `B = C = (0, 0, 0)`, all of mass 1, combining `(A, B)` first gives
`x = 1/3` and combining `(B, C)` first gives `x = 2/3`. -/
theorem avgMassPointWeighted_not_assoc :
    avgMassPointWeighted (avgMassPointWeighted ⟨4, 0, 0, 1⟩ ⟨0, 0, 0, 1⟩) ⟨0, 0, 0, 1⟩
      = ⟨1 / 3, 0, 0, 3⟩ ∧
    avgMassPointWeighted ⟨4, 0, 0, 1⟩ (avgMassPointWeighted ⟨0, 0, 0, 1⟩ ⟨0, 0, 0, 1⟩)
      = ⟨2 / 3, 0, 0, 3⟩ ∧
    avgMassPointWeighted (avgMassPointWeighted ⟨4, 0, 0, 1⟩ ⟨0, 0, 0, 1⟩) ⟨0, 0, 0, 1⟩
      ≠ avgMassPointWeighted ⟨4, 0, 0, 1⟩
          (avgMassPointWeighted ⟨0, 0, 0, 1⟩ ⟨0, 0, 0, 1⟩) := by
  refine ⟨?_, ?_, ?_⟩ <;>
    simp only [avgMassPointWeighted, fromWeightedSubspace, avgMassPoint, addMassPoint,
      toWeightedSubspace, ne_eq, MassPoint.mk.injEq] <;>
    norm_num

/-- C7: combine is commutative, `avgMassPointWeighted A B = avgMassPointWeighted B A`
for all points `A` and `B`; already the two averages taken in the weighted subspace
are the same point, so the equality does not depend on the division. -/
theorem avgMassPointWeighted_comm (a b : MassPoint) :
    avgMassPoint (toWeightedSubspace a) (toWeightedSubspace b)
      = avgMassPoint (toWeightedSubspace b) (toWeightedSubspace a) ∧
    avgMassPointWeighted a b = avgMassPointWeighted b a := by
  have h : avgMassPoint (toWeightedSubspace a) (toWeightedSubspace b)
      = avgMassPoint (toWeightedSubspace b) (toWeightedSubspace a) := by
    simp only [avgMassPoint, addMassPoint, toWeightedSubspace, MassPoint.mk.injEq]
    refine ⟨?_, ?_, ?_, ?_⟩ <;> ring
  exact ⟨h, by simp only [avgMassPointWeighted, h]⟩

/-! ## One round -/

/-- C10: one round on a sequence `s` of `n` points yields `⌈n/2⌉` points; element `i`,
for `i < ⌊n/2⌋`, is `avgMassPointWeighted s[2i] s[2i+1]`; when `n` is odd the last element
is `s[n-1]` unchanged.  On `[A, B, C]` the first round yields `[combine A B, C]` and the
second `[combine (combine A B) C]`. -/
theorem foldRound_shape (s : List MassPoint) :
    (foldRound s).length = (s.length + 1) / 2 ∧
    (∀ (i : Nat) (h : i < s.length / 2),
      (foldRound s)[i]? = some (avgMassPointWeighted (s.get ⟨2 * i, by omega⟩)
        (s.get ⟨2 * i + 1, by omega⟩))) ∧
    (∀ h : s.length % 2 = 1,
      (foldRound s)[s.length / 2]? = some (s.get ⟨s.length - 1, by omega⟩) ∧
      (foldRound s).length = s.length / 2 + 1) ∧
    (∀ a b c : MassPoint,
      foldRound [a, b, c] = [avgMassPointWeighted a b, c] ∧
      foldRound (foldRound [a, b, c])
        = [avgMassPointWeighted (avgMassPointWeighted a b) c]) := by
  refine ⟨?_, ?_, ?_, ?_⟩
  · rw [foldRound_eq_pairUp, length_pairUp]
  · intro i h
    rw [foldRound_eq_pairUp]
    exact pairUp_getElem s i (by omega)
  · intro h
    rw [foldRound_eq_pairUp, length_pairUp]
    exact ⟨pairUp_getElem_last s h, by omega⟩
  · intro a b c
    simp only [foldRound_eq_pairUp, pairUp, and_self]

/-- Instance of `foldRound_shape` on a five-point sequence: three points come out, the
second is the combination of the points at indices 2 and 3, the third is the last input
point. -/
theorem foldRound_shape_witness :
    (foldRound [⟨1, 0, 0, 1⟩, ⟨2, 0, 0, 1⟩, ⟨3, 0, 0, 2⟩, ⟨5, 0, 0, 2⟩, ⟨7, 1, 1, 5⟩]).length = 3 ∧
    (foldRound [⟨1, 0, 0, 1⟩, ⟨2, 0, 0, 1⟩, ⟨3, 0, 0, 2⟩, ⟨5, 0, 0, 2⟩, ⟨7, 1, 1, 5⟩])[1]?
      = some (avgMassPointWeighted ⟨3, 0, 0, 2⟩ ⟨5, 0, 0, 2⟩) ∧
    (foldRound [⟨1, 0, 0, 1⟩, ⟨2, 0, 0, 1⟩, ⟨3, 0, 0, 2⟩, ⟨5, 0, 0, 2⟩, ⟨7, 1, 1, 5⟩])[2]?
      = some ⟨7, 1, 1, 5⟩ :=
  ⟨(foldRound_shape _).1,
   (foldRound_shape [⟨1, 0, 0, 1⟩, ⟨2, 0, 0, 1⟩, ⟨3, 0, 0, 2⟩, ⟨5, 0, 0, 2⟩, ⟨7, 1, 1, 5⟩]).2.1 1
     (by decide),
   ((foldRound_shape [⟨1, 0, 0, 1⟩, ⟨2, 0, 0, 1⟩, ⟨3, 0, 0, 2⟩, ⟨5, 0, 0, 2⟩, ⟨7, 1, 1, 5⟩]).2.2.1
     (by decide)).1⟩

/-! ## The reduction loop -/

/-- C1 (the code departs from the claim): three points of mass 1 that all sit at
`(3, 3, 3)` have their mass-weighted centroid at `(3, 3, 3)`, yet with any fuel of at
least two rounds the reduction loop leaves the point `(1, 1, 1)` of mass 3. -/
theorem reduction_of_coincident_points :
    (∀ fuel, systemAverage (fuel + 2) [⟨3, 3, 3, 1⟩, ⟨3, 3, 3, 1⟩, ⟨3, 3, 3, 1⟩]
      = some ⟨1, 1, 1, 3⟩) ∧
    specCentroid [⟨3, 3, 3, 1⟩, ⟨3, 3, 3, 1⟩, ⟨3, 3, 3, 1⟩] = ⟨3, 3, 3, 3⟩ := by
  constructor
  · intro fuel
    apply systemAverage_mono
    simp only [systemAverage, reductionLoop, foldRound_eq_pairUp, pairUp,
      avgMassPointWeighted, fromWeightedSubspace, avgMassPoint, addMassPoint,
      toWeightedSubspace]
    norm_num
  · simp only [specCentroid, totalMass, List.map_cons, List.map_nil, List.sum_cons,
      List.sum_nil, MassPoint.mk.injEq]
    norm_num

/-- C4: for every non-empty sequence the reduction loop, given fuel for at least
as many rounds as there are points, leaves one point whose mass is the sum of all input
masses; whatever the fuel, a returned point has that mass; and every single round leaves
the total mass of the sequence unchanged. -/
theorem mass_conservation (s : List MassPoint) (hs : s ≠ []) :
    (∃ p, p.mass = totalMass s ∧ ∀ fuel, s.length ≤ fuel → systemAverage fuel s = some p) ∧
    (∀ fuel q, systemAverage fuel s = some q → q.mass = totalMass s) ∧
    totalMass (foldRound s) = totalMass s := by
  obtain ⟨p, hp, hm⟩ := reductionLoop_terminates s.length s hs (by omega)
  have hsa : systemAverage s.length s = some p := by simp [systemAverage, hp]
  refine ⟨⟨p, hm, ?_⟩, ?_, ?_⟩
  · intro fuel hf
    obtain ⟨k, rfl⟩ := Nat.exists_eq_add_of_le hf
    rw [Nat.add_comm]
    exact systemAverage_mono _ _ _ _ hsa
  · intro fuel q hq
    unfold systemAverage at hq
    cases hr : reductionLoop fuel s with
    | none => rw [hr] at hq; cases hq
    | some r =>
      rw [hr] at hq
      have e := reductionLoop_deterministic _ _ _ _ _ hr hp
      subst e
      simp only [Option.some_bind, List.head?_cons, Option.some.injEq] at hq
      rw [← hq]; exact hm
  · rw [foldRound_eq_pairUp, totalMass_pairUp]

/-- Instance of `mass_conservation` on three points of masses 1, 2 and 4. -/
theorem mass_conservation_witness :
    [(⟨1, 0, 0, 1⟩ : MassPoint), ⟨0, 1, 0, 2⟩, ⟨0, 0, 1, 4⟩] ≠ [] ∧
    (∃ p : MassPoint, p.mass = totalMass [⟨1, 0, 0, 1⟩, ⟨0, 1, 0, 2⟩, ⟨0, 0, 1, 4⟩] ∧
      ∀ fuel, [(⟨1, 0, 0, 1⟩ : MassPoint), ⟨0, 1, 0, 2⟩, ⟨0, 0, 1, 4⟩].length ≤ fuel →
        systemAverage fuel [⟨1, 0, 0, 1⟩, ⟨0, 1, 0, 2⟩, ⟨0, 0, 1, 4⟩] = some p) :=
  ⟨by simp, (mass_conservation [⟨1, 0, 0, 1⟩, ⟨0, 1, 0, 2⟩, ⟨0, 0, 1, 4⟩] (by simp)).1⟩

/-- C5 (the code departs from the claim): the result depends on the input order.
The sequence `(4,0,0;1), (0,0,0;1), (0,0,0;2)` reduces to `x = 1/4` and its reversal,
a permutation of it, reduces to `x = 1/2`. -/
theorem reduction_depends_on_order :
    List.Perm [(⟨4, 0, 0, 1⟩ : MassPoint), ⟨0, 0, 0, 1⟩, ⟨0, 0, 0, 2⟩]
      [⟨0, 0, 0, 2⟩, ⟨0, 0, 0, 1⟩, ⟨4, 0, 0, 1⟩] ∧
    (∀ fuel, systemAverage (fuel + 2) [⟨4, 0, 0, 1⟩, ⟨0, 0, 0, 1⟩, ⟨0, 0, 0, 2⟩]
      = some ⟨1 / 4, 0, 0, 4⟩) ∧
    (∀ fuel, systemAverage (fuel + 2) [⟨0, 0, 0, 2⟩, ⟨0, 0, 0, 1⟩, ⟨4, 0, 0, 1⟩]
      = some ⟨1 / 2, 0, 0, 4⟩) := by
  refine ⟨?_, ?_, ?_⟩
  · exact List.reverse_perm [(⟨0, 0, 0, 2⟩ : MassPoint), ⟨0, 0, 0, 1⟩, ⟨4, 0, 0, 1⟩]
  · intro fuel
    apply systemAverage_mono
    simp only [systemAverage, reductionLoop, foldRound_eq_pairUp, pairUp,
      avgMassPointWeighted, fromWeightedSubspace, avgMassPoint, addMassPoint,
      toWeightedSubspace]
    norm_num
  · intro fuel
    apply systemAverage_mono
    simp only [systemAverage, reductionLoop, foldRound_eq_pairUp, pairUp,
      avgMassPointWeighted, fromWeightedSubspace, avgMassPoint, addMassPoint,
      toWeightedSubspace]
    norm_num

/-- C8 (the code departs from the claim): on the two points `(0,0,0)` and `(2,0,0)`,
both of mass 1, the reduction yields `(1/2, 0, 0)` with mass 2, not the centroid
`(1, 0, 0)`. -/
theorem reduction_of_two_unit_points :
    (∀ fuel, systemAverage (fuel + 1) [⟨0, 0, 0, 1⟩, ⟨2, 0, 0, 1⟩] = some ⟨1 / 2, 0, 0, 2⟩) ∧
    systemAverage 0 [⟨0, 0, 0, 1⟩, ⟨2, 0, 0, 1⟩] = none ∧
    specCentroid [⟨0, 0, 0, 1⟩, ⟨2, 0, 0, 1⟩] = ⟨1, 0, 0, 2⟩ := by
  refine ⟨?_, ?_, ?_⟩
  · intro fuel
    apply systemAverage_mono
    simp only [systemAverage, reductionLoop, foldRound_eq_pairUp, pairUp,
      avgMassPointWeighted, fromWeightedSubspace, avgMassPoint, addMassPoint,
      toWeightedSubspace]
    norm_num
  · simp [systemAverage, reductionLoop]
  · simp only [specCentroid, totalMass, List.map_cons, List.map_nil, List.sum_cons,
      List.sum_nil, MassPoint.mk.injEq]
    norm_num

/-- C9: on a one-element collection `[P]` the loop runs no round, so no combine: it
returns `[P]` for every fuel, zero included, and the point read from it is exactly `P`. -/
theorem single_point_identity (p : MassPoint) (fuel : Nat) :
    reductionLoop 0 [p] = some [p] ∧
    reductionLoop fuel [p] = some [p] ∧
    systemAverage fuel [p] = some p := by
  have h : ∀ n, reductionLoop n [p] = some [p] := by
    intro n
    cases n <;> simp [reductionLoop]
  exact ⟨h 0, h fuel, by simp [systemAverage, h fuel]⟩

/-! ## Rounds, guard and positivity -/

theorem length_foldRound (s : List MassPoint) : (foldRound s).length = (s.length + 1) / 2 := by
  rw [foldRound_eq_pairUp, length_pairUp]

theorem reductionLoop_nil (fuel : Nat) : reductionLoop fuel [] = none := by
  induction fuel with
  | zero => simp [reductionLoop]
  | succ n ih =>
    have h : foldRound [] = [] := by rw [foldRound_eq_pairUp]; rfl
    simp [reductionLoop, h, ih]

theorem reductionRounds_of_clog_le (fuel : Nat) :
    ∀ s : List MassPoint, s ≠ [] → Nat.clog 2 s.length ≤ fuel →
      reductionRounds fuel s = some (Nat.clog 2 s.length) ∧
      reductionLoop fuel s = some (foldRound^[Nat.clog 2 s.length] s) ∧
      (foldRound^[Nat.clog 2 s.length] s).length = 1 := by
  induction fuel with
  | zero =>
    intro s hs hl
    have h1 : s.length = 1 := by
      have hpos : 0 < s.length := List.length_pos.mpr hs
      by_contra hne
      have := Nat.clog_pos (by norm_num : 1 < 2) (by omega : 2 ≤ s.length)
      omega
    simp [reductionRounds, reductionLoop, h1]
  | succ n ih =>
    intro s hs hl
    by_cases h1 : s.length = 1
    · simp [reductionRounds, reductionLoop, h1]
    · have hpos : 0 < s.length := List.length_pos.mpr hs
      have h2 : 2 ≤ s.length := by omega
      have hc : Nat.clog 2 s.length = Nat.clog 2 (foldRound s).length + 1 := by
        rw [Nat.clog_of_two_le (by norm_num) h2, length_foldRound]
        rfl
      have hne : foldRound s ≠ [] := by
        intro h
        have := congrArg List.length h
        rw [length_foldRound] at this
        simp at this
        omega
      obtain ⟨e1, e2, e3⟩ := ih (foldRound s) hne (by omega)
      rw [hc]
      refine ⟨?_, ?_, ?_⟩
      · simp [reductionRounds, h1, e1]
      · rw [reductionLoop, if_pos h1, e2, Function.iterate_succ_apply]
      · rw [Function.iterate_succ_apply]; exact e3

theorem reductionRounds_of_lt_clog (fuel : Nat) :
    ∀ s : List MassPoint, fuel < Nat.clog 2 s.length →
      reductionRounds fuel s = none ∧ reductionLoop fuel s = none := by
  induction fuel with
  | zero =>
    intro s hl
    have h1 : s.length ≠ 1 := by
      intro h; rw [h, Nat.clog_one_right] at hl; omega
    simp [reductionRounds, reductionLoop, h1]
  | succ n ih =>
    intro s hl
    have h1 : s.length ≠ 1 := by
      intro h; rw [h, Nat.clog_one_right] at hl; omega
    have h2 : 2 ≤ s.length := by
      by_contra h
      rw [Nat.clog_of_right_le_one (by omega)] at hl
      omega
    have hc : Nat.clog 2 s.length = Nat.clog 2 (foldRound s).length + 1 := by
      rw [Nat.clog_of_two_le (by norm_num) h2, length_foldRound]
      rfl
    obtain ⟨e1, e2⟩ := ih (foldRound s) (by omega)
    simp [reductionRounds, reductionLoop, h1, e1, e2]

/-- C11: for every collection of `N ≥ 1` points the loop terminates with exactly one
point after exactly `⌈log2 N⌉` rounds: with fuel for that many rounds the round counter
is `Nat.clog 2 N` and the loop returns a one-element sequence, with less fuel the loop
has not finished, and for `N = 1` the count is 0. -/
theorem reduction_round_count (s : List MassPoint) (hs : s ≠ []) :
    (∀ fuel, Nat.clog 2 s.length ≤ fuel →
      reductionRounds fuel s = some (Nat.clog 2 s.length) ∧
      ∃ p, reductionLoop fuel s = some [p] ∧ systemAverage fuel s = some p) ∧
    (∀ fuel, fuel < Nat.clog 2 s.length →
      reductionRounds fuel s = none ∧ reductionLoop fuel s = none) ∧
    s.length ≤ 2 ^ Nat.clog 2 s.length ∧
    (2 ≤ s.length → 2 ^ (Nat.clog 2 s.length - 1) < s.length) ∧
    (s.length = 1 → Nat.clog 2 s.length = 0) := by
  refine ⟨?_, ?_, ?_, ?_, ?_⟩
  · intro fuel hf
    obtain ⟨e1, e2, e3⟩ := reductionRounds_of_clog_le fuel s hs hf
    refine ⟨e1, ?_⟩
    match hr : foldRound^[Nat.clog 2 s.length] s, e3 with
    | [p], _ =>
      rw [hr] at e2
      exact ⟨p, e2, by simp [systemAverage, e2]⟩
  · intro fuel hf
    exact reductionRounds_of_lt_clog fuel s hf
  · exact Nat.le_pow_clog (by norm_num) _
  · intro h2
    exact Nat.pow_pred_clog_lt_self (by norm_num) h2
  · intro h1
    rw [h1, Nat.clog_one_right]

/-- Instance of `reduction_round_count` on five points: three rounds, and two rounds
of fuel are not enough. -/
theorem reduction_round_count_witness :
    [(⟨1, 0, 0, 1⟩ : MassPoint), ⟨2, 0, 0, 1⟩, ⟨3, 0, 0, 2⟩, ⟨5, 0, 0, 2⟩, ⟨7, 1, 1, 5⟩] ≠ [] ∧
    reductionRounds 3 [⟨1, 0, 0, 1⟩, ⟨2, 0, 0, 1⟩, ⟨3, 0, 0, 2⟩, ⟨5, 0, 0, 2⟩, ⟨7, 1, 1, 5⟩]
      = some 3 ∧
    reductionLoop 2 [⟨1, 0, 0, 1⟩, ⟨2, 0, 0, 1⟩, ⟨3, 0, 0, 2⟩, ⟨5, 0, 0, 2⟩, ⟨7, 1, 1, 5⟩]
      = none := by
  have hc : Nat.clog 2 5 = 3 := by
    rw [Nat.clog_of_two_le (by norm_num) (by norm_num),
      Nat.clog_of_two_le (by norm_num) (by norm_num),
      Nat.clog_of_two_le (by norm_num) (by norm_num), Nat.clog_of_right_le_one (by norm_num)]
  have h := reduction_round_count
    [⟨1, 0, 0, 1⟩, ⟨2, 0, 0, 1⟩, ⟨3, 0, 0, 2⟩, ⟨5, 0, 0, 2⟩, ⟨7, 1, 1, 5⟩] (by simp)
  simp only [List.length_cons, List.length_nil, Nat.zero_add, Nat.reduceAdd, hc] at h
  exact ⟨by simp, (h.1 3 (le_refl 3)).1, (h.2.1 2 (by decide)).2⟩

theorem systemAverage_of_ne_nil (s : List MassPoint) (hs : s ≠ []) :
    ∃ p, ∀ fuel, s.length ≤ fuel → systemAverage fuel s = some p := by
  obtain ⟨p, hp, _⟩ := reductionLoop_terminates s.length s hs (by omega)
  have hsa : systemAverage s.length s = some p := by simp [systemAverage, hp]
  refine ⟨p, ?_⟩
  intro fuel hf
  obtain ⟨k, rfl⟩ := Nat.exists_eq_add_of_le hf
  rw [Nat.add_comm]
  exact systemAverage_mono _ _ _ _ hsa

/-- C12: the stage after ingestion returns the fatal error "Insufficient values." exactly
when the loaded collection is empty, whatever the fuel, so without a single round of the
reduction loop (which on the empty collection would never finish); no other error exists;
and for every non-empty collection it returns no error but the point produced by the
reduction loop: the one element `p` the loop leaves, `masspoints[0]` after the loop, whose
mass is the total mass.  On `(4,0,0;1), (0,0,0;1), (0,0,0;2)` that point is
`(1/4, 0, 0)` of mass 4. -/
theorem afterIngestion_fatal_iff_empty (s : List MassPoint) :
    (∀ fuel, afterIngestion fuel s = Except.error "Insufficient values." ↔ s = []) ∧
    (∀ fuel e, afterIngestion fuel s = Except.error e → e = "Insufficient values." ∧ s = []) ∧
    (∀ fuel, afterIngestion fuel [] = Except.error "Insufficient values." ∧
      reductionLoop fuel [] = none) ∧
    (s ≠ [] → ∃ p, p.mass = totalMass s ∧ ∀ fuel, s.length ≤ fuel →
      reductionLoop fuel s = some [p] ∧ systemAverage fuel s = some p ∧
      afterIngestion fuel s = Except.ok (some p)) ∧
    (s ≠ [] → ∀ fuel, afterIngestion fuel s = Except.ok (systemAverage fuel s)) ∧
    (∀ fuel, afterIngestion (fuel + 2) [⟨4, 0, 0, 1⟩, ⟨0, 0, 0, 1⟩, ⟨0, 0, 0, 2⟩]
      = Except.ok (some ⟨1 / 4, 0, 0, 4⟩)) := by
  have hlen : s.length < 1 ↔ s = [] := by
    cases s <;> simp
  refine ⟨?_, ?_, ?_, ?_, ?_, ?_⟩
  · intro fuel
    unfold afterIngestion
    by_cases h : s = []
    · simp [h]
    · have h2 : ¬ s.length < 1 := fun hl => h (hlen.mp hl)
      simp [h, h2]
  · intro fuel e he
    unfold afterIngestion at he
    by_cases h : s = []
    · subst h
      simp at he
      exact ⟨he.symm, rfl⟩
    · have h2 : ¬ s.length < 1 := fun hl => h (hlen.mp hl)
      simp [h2] at he
  · intro fuel
    exact ⟨by simp [afterIngestion], reductionLoop_nil fuel⟩
  · intro hs
    obtain ⟨p, hp, hm⟩ := reductionLoop_terminates s.length s hs (by omega)
    refine ⟨p, hm, ?_⟩
    intro fuel hf
    obtain ⟨k, rfl⟩ := Nat.exists_eq_add_of_le hf
    have hl := reductionLoop_mono s.length k s [p] hp
    have h2 : ¬ s.length < 1 := fun hl => hs (hlen.mp hl)
    refine ⟨hl, by simp [systemAverage, hl], by simp [afterIngestion, h2, systemAverage, hl]⟩
  · intro hs fuel
    have h2 : ¬ s.length < 1 := fun hl => hs (hlen.mp hl)
    simp [afterIngestion, h2]
  · intro fuel
    have h : systemAverage (fuel + 2) [⟨4, 0, 0, 1⟩, ⟨0, 0, 0, 1⟩, ⟨0, 0, 0, 2⟩]
        = some ⟨1 / 4, 0, 0, 4⟩ := by
      apply systemAverage_mono
      simp only [systemAverage, reductionLoop, foldRound_eq_pairUp, pairUp,
        avgMassPointWeighted, fromWeightedSubspace, avgMassPoint, addMassPoint,
        toWeightedSubspace]
      norm_num
    simp [afterIngestion, h]

/-- Instance of `afterIngestion_fatal_iff_empty`: for the two points `(0,0,0;1)` and
`(2,0,0;1)` the stage returns, without error, the one point the loop leaves, of mass 2. -/
theorem afterIngestion_fatal_iff_empty_witness :
    [(⟨0, 0, 0, 1⟩ : MassPoint), ⟨2, 0, 0, 1⟩] ≠ [] ∧
    ∃ p, p.mass = totalMass [(⟨0, 0, 0, 1⟩ : MassPoint), ⟨2, 0, 0, 1⟩] ∧
      ∀ fuel, [(⟨0, 0, 0, 1⟩ : MassPoint), ⟨2, 0, 0, 1⟩].length ≤ fuel →
        reductionLoop fuel [⟨0, 0, 0, 1⟩, ⟨2, 0, 0, 1⟩] = some [p] ∧
        systemAverage fuel [⟨0, 0, 0, 1⟩, ⟨2, 0, 0, 1⟩] = some p ∧
        afterIngestion fuel [⟨0, 0, 0, 1⟩, ⟨2, 0, 0, 1⟩] = Except.ok (some p) :=
  ⟨by simp, (afterIngestion_fatal_iff_empty [⟨0, 0, 0, 1⟩, ⟨2, 0, 0, 1⟩]).2.2.2.1 (by simp)⟩

theorem pairUp_mass_pos (s : List MassPoint) (h : ∀ p ∈ s, 0 < p.mass) :
    ∀ p ∈ pairUp s, 0 < p.mass := by
  induction s using pairUp.induct with
  | case1 a b rest ih =>
    intro p hp
    simp only [pairUp, List.mem_cons] at hp
    rcases hp with rfl | hp
    · have ha := h a (by simp)
      have hb := h b (by simp)
      show 0 < a.mass + b.mass
      linarith
    · exact ih (fun q hq => h q (by simp [hq])) p hp
  | case2 a => simpa [pairUp] using h
  | case3 => simp [pairUp]

theorem iterate_foldRound_mass_pos (s : List MassPoint) (h : ∀ p ∈ s, 0 < p.mass) (k : Nat) :
    ∀ p ∈ foldRound^[k] s, 0 < p.mass := by
  induction k generalizing s with
  | zero => simpa using h
  | succ n ih =>
    rw [Function.iterate_succ_apply]
    apply ih
    rw [foldRound_eq_pairUp]
    exact pairUp_mass_pos s h

theorem reductionLoop_eq_iterate (fuel : Nat) :
    ∀ s r : List MassPoint, reductionLoop fuel s = some r → ∃ k, k ≤ fuel ∧ r = foldRound^[k] s := by
  induction fuel with
  | zero =>
    intro s r h
    simp only [reductionLoop] at h
    split at h
    · cases h
    · exact ⟨0, le_refl 0, (Option.some.inj h).symm⟩
  | succ n ih =>
    intro s r h
    rw [reductionLoop] at h
    split at h
    · obtain ⟨k, hk, e⟩ := ih _ _ h
      exact ⟨k + 1, by omega, by rw [Function.iterate_succ_apply]; exact e⟩
    · exact ⟨0, by omega, (Option.some.inj h).symm⟩

/-- C16: when all input masses are strictly positive, the sequence entering every round
of the reduction (the `k`-th iterate of the round, for every `k`) has all masses strictly
positive, and for each pair `(s[2i], s[2i+1])` combined in that round the argument handed
to `fromWeightedSubspace` has a strictly positive, hence non-zero, mass; every sequence
returned by the loop is one of these iterates. -/
theorem positive_mass_invariant (s : List MassPoint) (hs : s ≠ [])
    (hpos : ∀ p ∈ s, 0 < p.mass) :
    (∀ k, ∀ p ∈ foldRound^[k] s, 0 < p.mass) ∧
    (∀ k i a b, (foldRound^[k] s)[2 * i]? = some a → (foldRound^[k] s)[2 * i + 1]? = some b →
      0 < (avgMassPoint (toWeightedSubspace a) (toWeightedSubspace b)).mass ∧
      (avgMassPoint (toWeightedSubspace a) (toWeightedSubspace b)).mass ≠ 0) ∧
    (∀ fuel r, reductionLoop fuel s = some r → ∃ k, r = foldRound^[k] s) ∧
    (∃ p, 0 < p.mass ∧ ∀ fuel, s.length ≤ fuel → systemAverage fuel s = some p) := by
  have hall := iterate_foldRound_mass_pos s hpos
  refine ⟨hall, ?_, ?_, ?_⟩
  · intro k i a b ha hb
    have ha' := hall k a (List.getElem?_mem ha)
    have hb' := hall k b (List.getElem?_mem hb)
    have : 0 < (avgMassPoint (toWeightedSubspace a) (toWeightedSubspace b)).mass := by
      show 0 < a.mass + b.mass
      linarith
    exact ⟨this, ne_of_gt this⟩
  · intro fuel r h
    obtain ⟨k, _, e⟩ := reductionLoop_eq_iterate fuel s r h
    exact ⟨k, e⟩
  · obtain ⟨p, hp⟩ := systemAverage_of_ne_nil s hs
    refine ⟨p, ?_, hp⟩
    have h1 := hp s.length (le_refl _)
    unfold systemAverage at h1
    cases hr : reductionLoop s.length s with
    | none => rw [hr] at h1; cases h1
    | some r =>
      rw [hr] at h1
      obtain ⟨k, _, e⟩ := reductionLoop_eq_iterate _ s r hr
      have hm : p ∈ r := by
        cases r with
        | nil => simp at h1
        | cons q t =>
          simp only [Option.some_bind, List.head?_cons, Option.some.injEq] at h1
          simp [h1]
      rw [e] at hm
      exact hall k p hm

/-- Instance of `positive_mass_invariant` on three points of masses 1, 1 and 2: the
point the loop returns has a strictly positive mass. -/
theorem positive_mass_invariant_witness :
    [(⟨4, 0, 0, 1⟩ : MassPoint), ⟨0, 0, 0, 1⟩, ⟨0, 0, 0, 2⟩] ≠ [] ∧
    ∃ p : MassPoint, 0 < p.mass ∧
      ∀ fuel, [(⟨4, 0, 0, 1⟩ : MassPoint), ⟨0, 0, 0, 1⟩, ⟨0, 0, 0, 2⟩].length ≤ fuel →
        systemAverage fuel [⟨4, 0, 0, 1⟩, ⟨0, 0, 0, 1⟩, ⟨0, 0, 0, 2⟩] = some p :=
  ⟨by simp,
    (positive_mass_invariant [⟨4, 0, 0, 1⟩, ⟨0, 0, 0, 1⟩, ⟨0, 0, 0, 2⟩] (by simp)
      (by intro p hp; simp at hp; rcases hp with rfl | rfl | rfl <;> norm_num)).2.2.2⟩

/-! ## The weighted subspace -/

/-- C17: for all `A`, `B` with `A.mass + B.mass ≠ 0` the point `C = avgMassPointWeighted A B`
satisfies `C.x * 2 * (A.mass + B.mass) = A.x * A.mass + B.x * B.mass`, and the same for
`y` and `z`: the weighted sum is halved by `avgMassPoint` and then divided by the
undivided summed mass. -/
theorem avgMassPointWeighted_exact_value (a b : MassPoint) (h : a.mass + b.mass ≠ 0) :
    (avgMassPointWeighted a b).x * 2 * (a.mass + b.mass) = a.x * a.mass + b.x * b.mass ∧
    (avgMassPointWeighted a b).y * 2 * (a.mass + b.mass) = a.y * a.mass + b.y * b.mass ∧
    (avgMassPointWeighted a b).z * 2 * (a.mass + b.mass) = a.z * a.mass + b.z * b.mass := by
  simp only [avgMassPointWeighted, fromWeightedSubspace, avgMassPoint, addMassPoint,
    toWeightedSubspace]
  refine ⟨?_, ?_, ?_⟩ <;> field_simp <;> ring

/-- Instance of `avgMassPointWeighted_exact_value` at `A = (1, 2, 3; 1)`, `B = (3, 4, 5; 3)`. -/
theorem avgMassPointWeighted_exact_value_witness :
    (1 : ℚ) + 3 ≠ 0 ∧
    (avgMassPointWeighted ⟨1, 2, 3, 1⟩ ⟨3, 4, 5, 3⟩).x * 2 * (1 + 3) = 1 * 1 + 3 * 3 :=
  ⟨by norm_num, (avgMassPointWeighted_exact_value ⟨1, 2, 3, 1⟩ ⟨3, 4, 5, 3⟩ (by norm_num)).1⟩

/-- C19: for every point `P` with `P.mass ≠ 0`, mapping to the weighted subspace and
back returns `P`, and both maps leave the mass field unchanged. -/
theorem weightedSubspace_roundtrip (p : MassPoint) (h : p.mass ≠ 0) :
    fromWeightedSubspace (toWeightedSubspace p) = p ∧
    (toWeightedSubspace p).mass = p.mass ∧
    (∀ q : MassPoint, (fromWeightedSubspace q).mass = q.mass) := by
  refine ⟨?_, rfl, fun q => rfl⟩
  cases p with
  | mk x y z m =>
    simp only [fromWeightedSubspace, toWeightedSubspace, MassPoint.mk.injEq]
    simp only at h
    refine ⟨?_, ?_, ?_, trivial⟩ <;> field_simp

/-- Instance of `weightedSubspace_roundtrip` at the point `(1, 2, 3)` of mass 4. -/
theorem weightedSubspace_roundtrip_witness :
    (4 : ℚ) ≠ 0 ∧ fromWeightedSubspace (toWeightedSubspace ⟨1, 2, 3, 4⟩) = ⟨1, 2, 3, 4⟩ :=
  ⟨by norm_num, (weightedSubspace_roundtrip ⟨1, 2, 3, 4⟩ (by norm_num)).1⟩

/-! ## The read loop -/

theorem readString_terminated (l rest : List Char) (h : '\n' ∉ l) :
    readString '\n' (l ++ '\n' :: rest) = (l ++ ['\n'], false, rest) := by
  induction l with
  | nil => simp [readString]
  | cons c t ih =>
    have hc : c ≠ '\n' := fun e => h (by simp [e])
    have ht : '\n' ∉ t := fun e => h (by simp [e])
    simp [readString, hc, ih ht]

theorem readString_unterminated (frag : List Char) (h : '\n' ∉ frag) :
    readString '\n' frag = (frag, true, []) := by
  induction frag with
  | nil => simp [readString]
  | cons c t ih =>
    have hc : c ≠ '\n' := fun e => h (by simp [e])
    have ht : '\n' ∉ t := fun e => h (by simp [e])
    simp [readString, hc, ih ht]

theorem readLoop_terminatedLines (ls : List (List Char)) (frag : List Char)
    (hls : ∀ l ∈ ls, '\n' ∉ l) (hfrag : '\n' ∉ frag) :
    ∀ fuel, ls.length < fuel →
      readLoop fuel (terminatedLines ls ++ frag) = some (ls.map fun l => l ++ ['\n']) := by
  induction ls with
  | nil =>
    intro fuel hf
    obtain ⟨n, rfl⟩ : ∃ n, fuel = n + 1 := ⟨fuel - 1, by simp at hf; omega⟩
    simp [readLoop, terminatedLines, readString_unterminated frag hfrag]
  | cons l t ih =>
    intro fuel hf
    obtain ⟨n, rfl⟩ : ∃ n, fuel = n + 1 := ⟨fuel - 1, by omega⟩
    have hl : '\n' ∉ l := hls l (by simp)
    have ht : ∀ l ∈ t, '\n' ∉ l := fun x hx => hls x (by simp [hx])
    have e : terminatedLines (l :: t) ++ frag = l ++ '\n' :: (terminatedLines t ++ frag) := by
      simp [terminatedLines]
    have hn : t.length < n := by simp at hf; omega
    rw [e, readLoop]
    simp [readString_terminated l _ hl, ih ht n hn]

theorem exists_terminatedLines (input : List Char) :
    ∃ (ls : List (List Char)) (frag : List Char),
      (∀ l ∈ ls, '\n' ∉ l) ∧ '\n' ∉ frag ∧ input = terminatedLines ls ++ frag := by
  induction input with
  | nil => exact ⟨[], [], by simp, by simp, by simp [terminatedLines]⟩
  | cons c rest ih =>
    obtain ⟨ls, frag, h1, h2, h3⟩ := ih
    by_cases hc : c = '\n'
    · refine ⟨[] :: ls, frag, ?_, h2, ?_⟩
      · intro l hl
        simp only [List.mem_cons] at hl
        rcases hl with rfl | hl
        · simp
        · exact h1 l hl
      · simp [terminatedLines, hc, h3]
    · cases ls with
      | nil =>
        refine ⟨[], c :: frag, by simp, ?_, ?_⟩
        · simp only [List.mem_cons, not_or]
          exact ⟨fun e => hc e.symm, h2⟩
        · simp [terminatedLines] at h3 ⊢
          exact h3
      | cons l t =>
        refine ⟨(c :: l) :: t, frag, ?_, h2, ?_⟩
        · intro x hx
          simp only [List.mem_cons] at hx
          rcases hx with rfl | hx
          · simp only [List.mem_cons, not_or]
            exact ⟨fun e => hc e.symm, h1 l (by simp)⟩
          · exact h1 x (by simp [hx])
        · simp [terminatedLines] at h3 ⊢
          exact h3

/-- C18: when the input text consists of lines `ls` (none containing a newline), each
followed by a newline, and then a final fragment without newline, the read loop hands
to the parser exactly the newline-terminated segments, in order, and never the final
fragment; every input text has this form; and on the text `1:2:3:4\n5:6:7:8` only
`1:2:3:4\n` is handed over although the fragment is a well-formed record. -/
theorem readLoop_passes_terminated_segments (ls : List (List Char)) (frag : List Char)
    (hls : ∀ l ∈ ls, '\n' ∉ l) (hfrag : '\n' ∉ frag) :
    (∀ fuel, ls.length < fuel →
      readLoop fuel (terminatedLines ls ++ frag) = some (ls.map fun l => l ++ ['\n'])) ∧
    (∀ input : List Char, ∃ (ls0 : List (List Char)) (frag0 : List Char),
      (∀ l ∈ ls0, '\n' ∉ l) ∧ '\n' ∉ frag0 ∧ input = terminatedLines ls0 ++ frag0) ∧
    readString '\n' frag = (frag, true, []) ∧
    readLoop 2 ['1', ':', '2', ':', '3', ':', '4', '\n', '5', ':', '6', ':', '7', ':', '8']
      = some [['1', ':', '2', ':', '3', ':', '4', '\n']] := by
  refine ⟨readLoop_terminatedLines ls frag hls hfrag, exists_terminatedLines,
    readString_unterminated frag hfrag, ?_⟩
  simp [readLoop, readString]

/-- Instance of `readLoop_passes_terminated_segments`: of the text `a\nb\nc` the
segments `a\n` and `b\n` are handed over and the fragment `c` is not. -/
theorem readLoop_passes_terminated_segments_witness :
    readLoop 3 (terminatedLines [['a'], ['b']] ++ ['c']) = some [['a', '\n'], ['b', '\n']] :=
  (readLoop_passes_terminated_segments [['a'], ['b']] ['c'] (by decide) (by decide)).1 3
    (by decide)

/-! ## Scanning a line -/

theorem skipSpace_suffix : ∀ (input r : List Char), skipSpace input = some r → r <:+ input
  | [], r, h => by
    simp only [skipSpace, Option.some.injEq] at h
    subst h; exact List.suffix_refl _
  | c :: rest, r, h => by
    rw [skipSpace] at h
    split at h
    · exact (skipSpace_suffix rest r h).trans (List.suffix_cons c rest)
    · split at h
      · cases h
      · split at h
        · simp only [Option.some.injEq] at h
          subst h; exact List.suffix_refl _
        · exact (skipSpace_suffix rest r h).trans (List.suffix_cons c rest)

theorem accept_conserve (ok : List Char) (s : Scan) :
    (accept ok s).2.1 ++ (accept ok s).2.2 = s.1 ++ s.2 := by
  obtain ⟨buf, input⟩ := s
  cases input with
  | nil => simp [accept]
  | cons c rest =>
    by_cases h : c ∈ ok <;> simp [accept, h]

theorem accept3_conserve (a b c : List Char) (s : Scan) :
    (accept3 a b c s).2.1 ++ (accept3 a b c s).2.2 = s.1 ++ s.2 := by
  unfold accept3
  simp only []
  split
  · split
    · rw [accept_conserve, accept_conserve, accept_conserve]
    · rw [accept_conserve, accept_conserve]
  · rw [accept_conserve]

theorem acceptRun_conserve (ok : List Char) :
    ∀ (input buf : List Char),
      (acceptRun ok buf input).1 ++ (acceptRun ok buf input).2 = buf ++ input
  | [], buf => by simp [acceptRun]
  | c :: rest, buf => by
    by_cases h : c ∈ ok
    · simp [acceptRun, h, acceptRun_conserve ok rest (buf ++ [c])]
    · simp [acceptRun, h]

theorem acceptHexPrefix_conserve (s : Scan) :
    (acceptHexPrefix s).2.1 ++ (acceptHexPrefix s).2.2 = s.1 ++ s.2 := by
  unfold acceptHexPrefix
  simp only []
  split
  · rw [accept_conserve, accept_conserve]
  · rw [accept_conserve]

theorem floatTokenDigits_conserve (hex : Bool) (s : Scan) :
    (floatTokenDigits hex s).1 ++ (floatTokenDigits hex s).2 = s.1 ++ s.2 := by
  unfold floatTokenDigits
  simp only []
  generalize (if hex = true then hexadecimalDigits ++ ['_'] else decimalDigits ++ ['_']) = digits
  generalize (if hex = true then ['p', 'P'] else ['e', 'E', 'p', 'P']) = exp
  have h2 := acceptRun_conserve digits s.2 s.1
  generalize acceptRun digits s.1 s.2 = s2 at h2 ⊢
  have hp := accept_conserve ['.'] s2
  generalize accept ['.'] s2 = period at hp ⊢
  have h3 : (if period.1 = true then acceptRun digits period.2.1 period.2.2 else period.2).1 ++
      (if period.1 = true then acceptRun digits period.2.1 period.2.2 else period.2).2
        = period.2.1 ++ period.2.2 := by
    split
    · rw [acceptRun_conserve]
    · rfl
  generalize (if period.1 = true then acceptRun digits period.2.1 period.2.2 else period.2) = s3
    at h3 ⊢
  have he := accept_conserve exp s3
  generalize accept exp s3 = e at he ⊢
  split
  · rw [acceptRun_conserve, accept_conserve, he, h3, hp, h2]
  · rw [he, h3, hp, h2]

theorem floatToken_conserve (input : List Char) :
    (floatToken input).1 ++ (floatToken input).2 = input := by
  unfold floatToken
  simp only []
  split
  · rw [accept3_conserve]; rfl
  · split
    · rw [accept3_conserve, accept_conserve, accept3_conserve]; rfl
    · rw [floatTokenDigits_conserve, acceptHexPrefix_conserve, accept3_conserve,
        accept_conserve, accept3_conserve]
      rfl

theorem scanFloat_suffix {β : Type} (conv : List Char → Option β) (input : List Char)
    (d : β) (r : List Char) (h : scanFloat conv input = some (d, r)) : r <:+ input := by
  unfold scanFloat at h
  split at h
  · cases h
  · cases h
  · rename_i c rest hs
    have hsuf := skipSpace_suffix input _ hs
    cases hp : conv (floatToken (c :: rest)).1 with
    | none => simp [hp] at h
    | some v =>
      simp only [hp, Option.map_some', Option.some.injEq, Prod.mk.injEq] at h
      have hc := floatToken_conserve (c :: rest)
      have : r <:+ c :: rest := ⟨(floatToken (c :: rest)).1, by rw [← h.2]; exact hc⟩
      exact this.trans hsuf

theorem matchLiteral_eq_some (lit : Char) (input r : List Char)
    (h : matchLiteral lit input = some r) : input = lit :: r := by
  cases input with
  | nil => simp [matchLiteral] at h
  | cons c rest =>
    by_cases hc : c = lit
    · simp [matchLiteral, hc] at h
      rw [hc, h]
    · simp [matchLiteral, hc] at h

/-- A successful scan of the four fields, spelled out: each field scans as a number, the
first three are each followed by a colon, and the input after the fourth is arbitrary. -/
theorem sscanf4_eq_some_iff {β : Type} (conv : List Char → Option β) (s : List Char)
    (v : β × β × β × β) :
    sscanf4 conv s = some v ↔
      ∃ r1 r2 r3 r4, scanFloat conv s = some (v.1, ':' :: r1) ∧
        scanFloat conv r1 = some (v.2.1, ':' :: r2) ∧
        scanFloat conv r2 = some (v.2.2.1, ':' :: r3) ∧
        scanFloat conv r3 = some (v.2.2.2, r4) := by
  obtain ⟨v1, v2, v3, v4⟩ := v
  constructor
  · intro h
    unfold sscanf4 at h
    simp only [Option.bind_eq_some, Option.map_eq_some'] at h
    obtain ⟨f1, h1, r1, m1, f2, h2, r2, m2, f3, h3, r3, m3, f4, h4, e⟩ := h
    simp only [Prod.mk.injEq] at e
    obtain ⟨e1, e2, e3, e4⟩ := e
    have q1 := matchLiteral_eq_some _ _ _ m1
    have q2 := matchLiteral_eq_some _ _ _ m2
    have q3 := matchLiteral_eq_some _ _ _ m3
    refine ⟨r1, r2, r3, f4.2, ?_, ?_, ?_, ?_⟩
    · rw [h1, ← e1, ← q1]
    · rw [h2, ← e2, ← q2]
    · rw [h3, ← e3, ← q3]
    · rw [h4, ← e4]
  · rintro ⟨r1, r2, r3, r4, h1, h2, h3, h4⟩
    simp [sscanf4, h1, h2, h3, h4, matchLiteral]

theorem sscanf4_colon_count {β : Type} (conv : List Char → Option β) (s : List Char)
    (v : β × β × β × β) (h : sscanf4 conv s = some v) : 3 ≤ s.count ':' := by
  obtain ⟨r1, r2, r3, r4, h1, h2, h3, _⟩ := (sscanf4_eq_some_iff conv s v).mp h
  have c1 := (scanFloat_suffix conv _ _ _ h1).sublist.count_le ':'
  have c2 := (scanFloat_suffix conv _ _ _ h2).sublist.count_le ':'
  have c3 := (scanFloat_suffix conv _ _ _ h3).sublist.count_le ':'
  simp only [List.count_cons_self] at c1 c2 c3
  omega

theorem floatToken_of_not_start (c : Char) (rest : List Char)
    (h : c ∉ ['n', 'N', 'i', 'I', '+', '-', '.', 'e', 'E', 'p', 'P', '_',
      '0', '1', '2', '3', '4', '5', '6', '7', '8', '9']) :
    floatToken (c :: rest) = ([], c :: rest) := by
  simp only [List.mem_cons, List.mem_singleton, List.not_mem_nil, or_false, not_or] at h
  obtain ⟨h1, h2, h3, h4, h5, h6, h7, h8, h9, h10, h11, h12, d0, d1, d2, d3, d4, d5, d6,
    d7, d8, d9⟩ := h
  simp [floatToken, accept3, accept, acceptHexPrefix, floatTokenDigits, acceptRun,
    decimalDigits, h1, h2, h3, h4, h5, h6, h7, h8, h9, h10, h11, h12, d0, d1, d2, d3, d4, d5,
    d6, d7, d8, d9]

theorem scanFloat_of_not_start {β : Type} (conv : List Char → Option β)
    (hempty : conv [] = none) (c : Char) (rest : List Char) (hs : isSpace c = false)
    (h : c ∉ ['n', 'N', 'i', 'I', '+', '-', '.', 'e', 'E', 'p', 'P', '_',
      '0', '1', '2', '3', '4', '5', '6', '7', '8', '9']) :
    scanFloat conv (c :: rest) = none := by
  have hn : c ≠ '\n' := by
    intro e; rw [e] at hs; revert hs; decide
  have hr : c ≠ '\r' := by
    intro e; rw [e] at hs; revert hs; decide
  have hk : skipSpace (c :: rest) = some (c :: rest) := by
    simp [skipSpace, hn, hr, hs]
  simp only [scanFloat, hk, floatToken_of_not_start c rest h, hempty]
  rfl

theorem floatToken_digit_cons (d c : Char) (t : List Char)
    (hd : d ∈ ['1', '2', '3', '4', '5', '6', '7', '8', '9'])
    (hc : c ∉ ['.', 'e', 'E', 'p', 'P', '_', '0', '1', '2', '3', '4', '5', '6', '7', '8', '9']) :
    floatToken (d :: c :: t) = ([d], c :: t) := by
  simp only [List.mem_cons, List.mem_singleton, List.not_mem_nil, or_false, not_or] at hc
  obtain ⟨h1, h2, h3, h4, h5, h6, d0, d1, d2, d3, d4, d5, d6, d7, d8, d9⟩ := hc
  simp only [List.mem_cons, List.mem_singleton, List.not_mem_nil, or_false] at hd
  rcases hd with rfl | rfl | rfl | rfl | rfl | rfl | rfl | rfl | rfl <;>
    simp [floatToken, accept3, accept, acceptHexPrefix, floatTokenDigits, acceptRun,
      decimalDigits, h1, h2, h3, h4, h5, h6, d0, d1, d2, d3, d4, d5, d6, d7, d8, d9]

theorem floatToken_digit_nil (d : Char)
    (hd : d ∈ ['1', '2', '3', '4', '5', '6', '7', '8', '9']) :
    floatToken [d] = ([d], []) := by
  simp only [List.mem_cons, List.mem_singleton, List.not_mem_nil, or_false] at hd
  rcases hd with rfl | rfl | rfl | rfl | rfl | rfl | rfl | rfl | rfl <;> decide

theorem scanFloat_digit {β : Type} (conv : List Char → Option β) (d : Char) (t : List Char)
    (hd : d ∈ ['1', '2', '3', '4', '5', '6', '7', '8', '9'])
    (ht : ∀ c ∈ t.head?,
      c ∉ ['.', 'e', 'E', 'p', 'P', '_', '0', '1', '2', '3', '4', '5', '6', '7', '8', '9']) :
    scanFloat conv (d :: t) = (conv [d]).map fun v => (v, t) := by
  have hk : skipSpace (d :: t) = some (d :: t) := by
    simp only [List.mem_cons, List.mem_singleton, List.not_mem_nil, or_false] at hd
    rcases hd with rfl | rfl | rfl | rfl | rfl | rfl | rfl | rfl | rfl <;>
      simp [skipSpace, isSpace]
  have ht' : floatToken (d :: t) = ([d], t) := by
    cases t with
    | nil => exact floatToken_digit_nil d hd
    | cons c t => exact floatToken_digit_cons d c t hd (ht c (by simp))
  simp only [scanFloat, hk, ht']

theorem sscanf4_ignores_tail {β : Type} (conv : List Char → Option β) (a b c d : β)
    (h1 : conv ['1'] = some a) (h2 : conv ['2'] = some b) (h3 : conv ['3'] = some c)
    (h4 : conv ['4'] = some d) (rest : List Char)
    (h : ∀ ch ∈ rest.head?,
      ch ∉ ['.', 'e', 'E', 'p', 'P', '_', '0', '1', '2', '3', '4', '5', '6', '7', '8', '9']) :
    sscanf4 conv ('1' :: ':' :: '2' :: ':' :: '3' :: ':' :: '4' :: rest)
      = some (a, b, c, d) := by
  rw [sscanf4_eq_some_iff]
  refine ⟨'2' :: ':' :: '3' :: ':' :: '4' :: rest, '3' :: ':' :: '4' :: rest, '4' :: rest, rest,
    ?_, ?_, ?_, ?_⟩
  · rw [scanFloat_digit conv _ _ (by decide) (by simp), h1]; rfl
  · rw [scanFloat_digit conv _ _ (by decide) (by simp), h2]; rfl
  · rw [scanFloat_digit conv _ _ (by decide) (by simp), h3]; rfl
  · rw [scanFloat_digit conv _ _ (by decide) h, h4]; rfl

theorem decimalPoint_small (a b c d : Int) :
    decimalPoint ((a, 0), (b, 0), (c, 0), (d, 0)) = ⟨a, b, c, d⟩ := by
  simp [decimalPoint, decimalValue]

/-- C14 (fails as stated on the code): the lines `1:2:3:4:5` and `1:2:3:4garbage`, which
the claim says are dropped, each contribute the point `(1, 2, 3)` of mass 4, because
the scan ends with the fourth number and never looks at the rest of the line. -/
theorem stringToPoint_accepts_longer_lines :
    stringToPoint "1:2:3:4:5\n".toList = some ⟨1, 2, 3, 4⟩ ∧
    stringToPoint "1:2:3:4garbage\n".toList = some ⟨1, 2, 3, 4⟩ ∧
    stringToPoint "1:2:3:4:5".toList = some ⟨1, 2, 3, 4⟩ ∧
    stringToPoint "1:2:3:4garbage".toList = some ⟨1, 2, 3, 4⟩ := by
  have h1 : sscanf4 parseDecimal "1:2:3:4:5\n".toList
      = some ((1, 0), (2, 0), (3, 0), (4, 0)) := by decide
  have h2 : sscanf4 parseDecimal "1:2:3:4garbage\n".toList
      = some ((1, 0), (2, 0), (3, 0), (4, 0)) := by decide
  have h3 : sscanf4 parseDecimal "1:2:3:4:5".toList
      = some ((1, 0), (2, 0), (3, 0), (4, 0)) := by decide
  have h4 : sscanf4 parseDecimal "1:2:3:4garbage".toList
      = some ((1, 0), (2, 0), (3, 0), (4, 0)) := by decide
  have e := decimalPoint_small 1 2 3 4
  norm_num at e
  refine ⟨?_, ?_, ?_, ?_⟩ <;>
    simp only [stringToPoint, h1, h2, h3, h4, Option.map_some', e]

/-- C14 as amended, for whatever the conversion of a token to a number is: `Sscanf`
succeeds on a line exactly when the line begins with four tokens that convert, the
first three each followed directly by a colon, whatever comes after the fourth token; so
a line with fewer than three colons is dropped; when the empty token does not convert, a
field that starts with a character that is neither blank nor in the alphabet of number
tokens fails the scan, and a line that starts with such a character is dropped; and the
text `1:2:3:4` followed by anything that does not
continue the token `4` scans as the numbers of the tokens `1`, `2`, `3`, `4`.  With the
decimal conversion the lines `1:2:3`, `1:x:3:4`, `garbage` and `1:2:3:` are dropped. -/
theorem sscanf4_needs_four_leading_fields {β : Type} (convertFloat : List Char → Option β)
    (s : List Char) :
    (∀ v, sscanf4 convertFloat s = some v ↔
      ∃ r1 r2 r3 r4, scanFloat convertFloat s = some (v.1, ':' :: r1) ∧
        scanFloat convertFloat r1 = some (v.2.1, ':' :: r2) ∧
        scanFloat convertFloat r2 = some (v.2.2.1, ':' :: r3) ∧
        scanFloat convertFloat r3 = some (v.2.2.2, r4)) ∧
    (s.count ':' < 3 → sscanf4 convertFloat s = none) ∧
    (convertFloat [] = none → ∀ c rest, isSpace c = false →
      c ∉ ['n', 'N', 'i', 'I', '+', '-', '.', 'e', 'E', 'p', 'P', '_',
        '0', '1', '2', '3', '4', '5', '6', '7', '8', '9'] →
      scanFloat convertFloat (c :: rest) = none ∧ sscanf4 convertFloat (c :: rest) = none) ∧
    (∀ a b c d, convertFloat ['1'] = some a → convertFloat ['2'] = some b →
      convertFloat ['3'] = some c → convertFloat ['4'] = some d →
      (∀ ch ∈ s.head?,
        ch ∉ ['.', 'e', 'E', 'p', 'P', '_', '0', '1', '2', '3', '4', '5', '6', '7', '8', '9']) →
      sscanf4 convertFloat ("1:2:3:4".toList ++ s) = some (a, b, c, d)) ∧
    stringToPoint "1:2:3\n".toList = none ∧
    stringToPoint "1:x:3:4\n".toList = none ∧
    stringToPoint "garbage\n".toList = none ∧
    stringToPoint "1:2:3:\n".toList = none := by
  refine ⟨?_, ?_, ?_, ?_, ?_, ?_, ?_, ?_⟩
  · intro v
    exact sscanf4_eq_some_iff convertFloat s v
  · intro hc
    cases h : sscanf4 convertFloat s with
    | none => rfl
    | some v =>
      have := sscanf4_colon_count convertFloat s v h
      omega
  · intro hempty c rest hs hc
    have h := scanFloat_of_not_start convertFloat hempty c rest hs hc
    exact ⟨h, by simp [sscanf4, h]⟩
  · intro a b c d h1 h2 h3 h4 h
    have e : "1:2:3:4".toList ++ s = '1' :: ':' :: '2' :: ':' :: '3' :: ':' :: '4' :: s := rfl
    rw [e]
    exact sscanf4_ignores_tail convertFloat a b c d h1 h2 h3 h4 s h
  · have h : sscanf4 parseDecimal "1:2:3\n".toList = none := by decide
    simp only [stringToPoint, h, Option.map_none']
  · have h : sscanf4 parseDecimal "1:x:3:4\n".toList = none := by decide
    simp only [stringToPoint, h, Option.map_none']
  · have h : sscanf4 parseDecimal "garbage\n".toList = none := by decide
    simp only [stringToPoint, h, Option.map_none']
  · have h : sscanf4 parseDecimal "1:2:3:\n".toList = none := by decide
    simp only [stringToPoint, h, Option.map_none']

/-- Instance of `sscanf4_needs_four_leading_fields` with the decimal conversion: the
line `4:5` holds one colon and is dropped, the field `x:3:4` fails the scan, and
`1:2:3:4` followed by ` # note` scans as the four numbers. -/
theorem sscanf4_needs_four_leading_fields_witness :
    "4:5\n".toList.count ':' < 3 ∧ sscanf4 parseDecimal "4:5\n".toList = none ∧
    scanFloat parseDecimal "x:3:4\n".toList = none ∧
    sscanf4 parseDecimal ("1:2:3:4".toList ++ " # note\n".toList)
      = some ((1, 0), (2, 0), (3, 0), (4, 0)) :=
  ⟨by decide,
    (sscanf4_needs_four_leading_fields parseDecimal "4:5\n".toList).2.1 (by decide),
    ((sscanf4_needs_four_leading_fields parseDecimal []).2.2.1 (by decide) 'x'
      ":3:4\n".toList (by decide) (by decide)).1,
    (sscanf4_needs_four_leading_fields parseDecimal " # note\n".toList).2.2.2.1
      (1, 0) (2, 0) (3, 0) (4, 0) (by decide) (by decide) (by decide) (by decide)
      (by decide)⟩

/-! ## Concurrent ingestion -/

theorem sum_map_set {α M : Type} [AddCommMonoid M] (f : Parser α → M) :
    ∀ (ps : List (Parser α)) (i : Nat) (old new : Parser α), ps[i]? = some old →
      ((ps.set i new).map f).sum + f old = (ps.map f).sum + f new
  | [], i, old, new, h => by simp at h
  | p :: ps, 0, old, new, h => by
    simp only [List.getElem?_cons_zero, Option.some.injEq] at h
    subst h
    simp only [List.set_cons_zero, List.map_cons, List.sum_cons]
    abel
  | p :: ps, i + 1, old, new, h => by
    simp only [List.getElem?_cons_succ] at h
    have ih := sum_map_set f ps i old new h
    simp only [List.set_cons_succ, List.map_cons, List.sum_cons]
    rw [add_assoc, ih, add_assoc]

theorem step_weight_lt {α : Type} (scan : List Char → Option α) (s s' : State α)
    (a : Action) (h : step scan s a = some s') :
    s'.weight < s.weight := by
  cases a with
  | spawn =>
    simp only [step] at h
    split at h
    · rename_i str rest hpc
      simp only [Option.some.injEq] at h
      subst h
      simp [State.weight, hpc, MainPC.weight, Parser.weight]
      omega
    · cases h
  | startWaiter =>
    simp only [step] at h
    split at h
    · rename_i hpc hw
      simp only [Option.some.injEq] at h
      subst h
      simp only [State.weight, hpc, hw, MainPC.weight, Waiter.weight, List.length_nil]
      omega
    · cases h
  | scan i =>
    simp only [step] at h
    split at h
    · rename_i str hp
      simp only [Option.some.injEq] at h
      subst h
      have e := sum_map_set Parser.weight s.parsers i _ (Parser.afterScan scan str) hp
      have hw : (Parser.afterScan scan str).weight ≤ 4 := by
        unfold Parser.afterScan
        split <;> simp [Parser.weight]
      have ho : (Parser.scanning str : Parser α).weight = 5 := rfl
      simp only [State.weight]
      omega
    · cases h
  | send i =>
    simp only [step] at h
    split at h
    · rename_i p hp
      split at h
      · simp only [Option.some.injEq] at h
        subst h
        have e := sum_map_set Parser.weight s.parsers i _ Parser.exiting hp
        simp only [State.weight, Parser.weight, List.length_append, List.length_singleton]
          at e ⊢
        omega
      · cases h
    · cases h
  | done i =>
    simp only [step] at h
    split at h
    · rename_i hp
      split at h
      · simp only [Option.some.injEq] at h
        subst h
        have e := sum_map_set Parser.weight s.parsers i _ Parser.finished hp
        simp only [State.weight, Parser.weight] at e ⊢
        omega
      · cases h
    · cases h
  | wake =>
    simp only [step] at h
    split at h
    · rename_i hw
      split at h
      · simp only [Option.some.injEq] at h
        subst h
        simp only [State.weight, hw, Waiter.weight]
        omega
      · cases h
    · cases h
  | test =>
    simp only [step] at h
    split at h
    · rename_i hpc
      simp only [Option.some.injEq] at h
      subst h
      simp only [State.weight, hpc]
      by_cases hb : (s.run || decide (0 < s.masspointsChan.length)) = true <;>
        simp [hb, MainPC.weight]
    · cases h
  | recvPoint =>
    simp only [step] at h
    split at h
    · rename_i val rest hpc hch
      simp only [Option.some.injEq] at h
      subst h
      simp only [State.weight, hpc, hch, MainPC.weight, List.length_cons]
      omega
    · cases h
  | recvSync =>
    simp only [step] at h
    split at h
    · rename_i hpc hw
      simp only [Option.some.injEq] at h
      subst h
      simp only [State.weight, hpc, hw, MainPC.weight, Waiter.weight]
      omega
    · cases h

theorem pending_afterScan {α : Type} (scan : List Char → Option α) (str : List Char) :
    Parser.pending scan (Parser.afterScan scan str) = Parser.pending scan (Parser.scanning str) := by
  unfold Parser.afterScan
  cases h : scan str with
  | none => simp [Parser.pending, h]
  | some p => simp [Parser.pending, h]

theorem active_afterScan {α : Type} (scan : List Char → Option α) (str : List Char) :
    (Parser.afterScan scan str).active = 1 := by
  unfold Parser.afterScan
  split <;> rfl

theorem coe_filterMap_cons {α : Type} (scan : List Char → Option α) (str : List Char)
    (rest : List (List Char)) :
    (((str :: rest).filterMap scan : List α) : Multiset α)
      = ((scan str).toList : Multiset α)
        + ((rest.filterMap scan : List α) : Multiset α) := by
  cases h : scan str with
  | none => simp [List.filterMap_cons, h]
  | some p => simp [List.filterMap_cons, h]

theorem active_sum_pos {α : Type} (ps : List (Parser α)) (i : Nat) (q : Parser α)
    (h : ps[i]? = some q)
    (hq : q.active = 1) : 0 < (ps.map Parser.active).sum := by
  have e := sum_map_set Parser.active ps i q Parser.finished h
  have hf : (Parser.finished : Parser α).active = 0 := rfl
  omega

theorem inv_init {α : Type} (scan : List Char → Option α) (strs : List (List Char)) :
    Inv scan strs (initState strs) := by
  refine ⟨?_, ?_, ?_, ?_, ?_, ?_, ?_, ?_⟩ <;> simp [initState, MainPC.unread]

theorem inv_spawn {α : Type} (scan : List Char → Option α)
    (strs : List (List Char)) (s s' : State α) (inv : Inv scan strs s)
    (h : step scan s Action.spawn = some s') : Inv scan strs s' := by
  simp only [step] at h
  split at h
  · rename_i str rest hpc
    simp only [Option.some.injEq] at h
    subst h
    have hw : s.waiter = Waiter.notStarted := inv.started.mpr ⟨_, hpc⟩
    refine ⟨?_, ?_, ?_, ?_, ?_, ?_, ?_, ?_⟩
    · have c := inv.conserve
      rw [hpc] at c
      simp only [MainPC.unread, coe_filterMap_cons] at c
      simp only [MainPC.unread, List.map_append, List.map_cons, List.map_nil, List.sum_append,
        List.sum_cons, List.sum_nil, add_zero, Parser.pending]
      rw [← c]
      abel
    · simp [inv.counter, Parser.active]
    · simp [hw]
    · simp [hw]
    · exact inv.cleared
    · exact inv.sends
    · simp
    · simp
  · cases h

theorem inv_startWaiter {α : Type} (scan : List Char → Option α)
    (strs : List (List Char)) (s s' : State α) (inv : Inv scan strs s)
    (h : step scan s Action.startWaiter = some s') : Inv scan strs s' := by
  simp only [step] at h
  split at h
  · rename_i hpc hw
    simp only [Option.some.injEq] at h
    subst h
    refine ⟨?_, ?_, ?_, ?_, ?_, ?_, ?_, ?_⟩
    · have c := inv.conserve
      rw [hpc] at c
      simpa [MainPC.unread] using c
    · exact inv.counter
    · simp
    · simp
    · simp
    · have := inv.sends
      simp [hw] at this
      simp [this]
    · simp
    · simp
  · cases h

theorem inv_scan {α : Type} (scan : List Char → Option α)
    (strs : List (List Char)) (s s' : State α) (i : Nat) (inv : Inv scan strs s)
    (h : step scan s (Action.scan i) = some s') : Inv scan strs s' := by
  simp only [step] at h
  split at h
  · rename_i str hp
    simp only [Option.some.injEq] at h
    subst h
    have e1 := sum_map_set (Parser.pending scan) s.parsers i _ (Parser.afterScan scan str) hp
    have e2 := sum_map_set Parser.active s.parsers i _ (Parser.afterScan scan str) hp
    rw [pending_afterScan] at e1
    rw [active_afterScan] at e2
    have e1' := add_right_cancel e1
    refine ⟨?_, ?_, inv.started, inv.passed, inv.cleared, inv.sends, inv.selecting,
      inv.drained⟩
    · show _ + _ + ((s.parsers.set i (Parser.afterScan scan str)).map (Parser.pending scan)).sum + _ = _
      rw [e1']; exact inv.conserve
    · show s.wg = ((s.parsers.set i (Parser.afterScan scan str)).map Parser.active).sum
      have := inv.counter
      simp only [Parser.active] at e2
      omega
  · cases h

theorem inv_no_active_of_loaded {α : Type} (scan : List Char → Option α)
    (strs : List (List Char)) (s : State α) (inv : Inv scan strs s)
    (h : s.pc = MainPC.loaded) : (s.parsers.map Parser.active).sum = 0 := by
  have hr := (inv.drained h).1
  have hw := inv.cleared.mp hr
  rw [← inv.counter]
  exact inv.passed (Or.inr hw)

theorem inv_send {α : Type} (scan : List Char → Option α)
    (strs : List (List Char)) (s s' : State α) (i : Nat) (inv : Inv scan strs s)
    (h : step scan s (Action.send i) = some s') : Inv scan strs s' := by
  simp only [step] at h
  split at h
  · rename_i p hp
    split at h
    · simp only [Option.some.injEq] at h
      subst h
      have e1 := sum_map_set (Parser.pending scan) s.parsers i _ Parser.exiting hp
      have e2 := sum_map_set Parser.active s.parsers i _ Parser.exiting hp
      have hact := active_sum_pos s.parsers i _ hp rfl
      refine ⟨?_, ?_, inv.started, inv.passed, inv.cleared, inv.sends, ?_, ?_⟩
      · show _ + ((s.masspointsChan ++ [p] : List α) : Multiset α)
          + ((s.parsers.set i Parser.exiting).map (Parser.pending scan)).sum + _ = _
        have c := inv.conserve
        simp only [Parser.pending, add_zero] at e1
        rw [← e1] at c
        rw [← c, ← Multiset.coe_add]
        dsimp only
        rw [Multiset.coe_singleton]
        abel
      · show s.wg = ((s.parsers.set i Parser.exiting).map Parser.active).sum
        have := inv.counter
        have h1 : (Parser.exiting : Parser α).active = 1 := rfl
        have h2 : (Parser.sending p).active = 1 := rfl
        omega
      · intro _
        right
        simp
      · intro hl
        have := inv_no_active_of_loaded scan strs s inv hl
        omega
    · cases h
  · cases h

theorem inv_done {α : Type} (scan : List Char → Option α)
    (strs : List (List Char)) (s s' : State α) (i : Nat) (inv : Inv scan strs s)
    (h : step scan s (Action.done i) = some s') : Inv scan strs s' := by
  simp only [step] at h
  split at h
  · rename_i hp
    split at h
    · rename_i hwg
      simp only [Option.some.injEq] at h
      subst h
      have e1 := sum_map_set (Parser.pending scan) s.parsers i _ Parser.finished hp
      have e2 := sum_map_set Parser.active s.parsers i _ Parser.finished hp
      refine ⟨?_, ?_, inv.started, ?_, inv.cleared, inv.sends, inv.selecting, inv.drained⟩
      · show _ + _ + ((s.parsers.set i Parser.finished).map (Parser.pending scan)).sum + _ = _
        simp only [Parser.pending, add_zero] at e1
        rw [e1]; exact inv.conserve
      · show s.wg - 1 = ((s.parsers.set i Parser.finished).map Parser.active).sum
        have := inv.counter
        have h1 : (Parser.exiting : Parser α).active = 1 := rfl
        have h2 : (Parser.finished : Parser α).active = 0 := rfl
        omega
      · intro hw
        show s.wg - 1 = 0
        have := inv.passed hw
        omega
    · cases h
  · cases h

theorem inv_wake {α : Type} (scan : List Char → Option α)
    (strs : List (List Char)) (s s' : State α) (inv : Inv scan strs s)
    (h : step scan s Action.wake = some s') : Inv scan strs s' := by
  simp only [step] at h
  split at h
  · rename_i hw
    split at h
    · rename_i hwg
      simp only [Option.some.injEq] at h
      subst h
      have hs := inv.started
      have hc := inv.cleared
      have hn := inv.sends
      rw [hw] at hs hc hn
      refine ⟨inv.conserve, inv.counter, ?_, ?_, ?_, ?_, inv.selecting, inv.drained⟩
      · simpa using hs
      · intro _; exact hwg
      · simpa using hc
      · simpa using hn
    · cases h
  · cases h

theorem inv_test {α : Type} (scan : List Char → Option α)
    (strs : List (List Char)) (s s' : State α) (inv : Inv scan strs s)
    (h : step scan s Action.test = some s') : Inv scan strs s' := by
  simp only [step] at h
  split at h
  · rename_i hpc
    simp only [Option.some.injEq] at h
    subst h
    have hs := inv.started
    have c := inv.conserve
    rw [hpc] at hs c
    by_cases hb : (s.run || decide (0 < s.masspointsChan.length)) = true
    · refine ⟨?_, inv.counter, ?_, inv.passed, inv.cleared, inv.sends, ?_, ?_⟩
      · simpa [hb, MainPC.unread] using c
      · simpa [hb] using hs
      · intro _
        simp only [Bool.or_eq_true, decide_eq_true_eq] at hb
        rcases hb with hb | hb
        · exact Or.inl hb
        · exact Or.inr (List.length_pos.mp hb)
      · simp [hb]
    · refine ⟨?_, inv.counter, ?_, inv.passed, inv.cleared, inv.sends, ?_, ?_⟩
      · simpa [hb, MainPC.unread] using c
      · simpa [hb] using hs
      · simp [hb]
      · intro _
        simp only [Bool.or_eq_true, decide_eq_true_eq, not_or, Bool.not_eq_true, not_lt,
          Nat.le_zero_eq, List.length_eq_zero] at hb
        exact hb
  · cases h

theorem inv_recvPoint {α : Type} (scan : List Char → Option α)
    (strs : List (List Char)) (s s' : State α) (inv : Inv scan strs s)
    (h : step scan s Action.recvPoint = some s') : Inv scan strs s' := by
  simp only [step] at h
  split at h
  · rename_i val rest hpc hch
    simp only [Option.some.injEq] at h
    subst h
    have hs := inv.started
    have c := inv.conserve
    rw [hpc] at hs
    rw [hpc, hch] at c
    refine ⟨?_, inv.counter, ?_, inv.passed, inv.cleared, inv.sends, ?_, ?_⟩
    · show ((s.masspoints ++ [val] : List α) : Multiset α)
          + ((rest : List α) : Multiset α) + _ + _ = _
      rw [← c]
      dsimp only [MainPC.unread]
      rw [← Multiset.coe_add s.masspoints [val], ← Multiset.cons_coe val rest,
        ← Multiset.singleton_add val, Multiset.coe_singleton]
      abel
    · simpa using hs
    · simp
    · simp
  · cases h

theorem inv_recvSync {α : Type} (scan : List Char → Option α)
    (strs : List (List Char)) (s s' : State α) (inv : Inv scan strs s)
    (h : step scan s Action.recvSync = some s') : Inv scan strs s' := by
  simp only [step] at h
  split at h
  · rename_i hpc hw
    simp only [Option.some.injEq] at h
    subst h
    have hs := inv.started
    have c := inv.conserve
    have hn := inv.sends
    rw [hpc] at hs c
    rw [hw] at hn
    refine ⟨?_, inv.counter, ?_, ?_, ?_, ?_, ?_, ?_⟩
    · simpa [MainPC.unread] using c
    · simp
    · intro _; exact inv.passed (Or.inl hw)
    · simp
    · simp at hn
      simp [hn]
    · simp
    · simp
  · cases h

theorem inv_step {α : Type} (scan : List Char → Option α)
    (strs : List (List Char)) (s s' : State α) (a : Action) (inv : Inv scan strs s)
    (h : step scan s a = some s') : Inv scan strs s' := by
  cases a with
  | spawn => exact inv_spawn scan strs s s' inv h
  | startWaiter => exact inv_startWaiter scan strs s s' inv h
  | scan i => exact inv_scan scan strs s s' i inv h
  | send i => exact inv_send scan strs s s' i inv h
  | done i => exact inv_done scan strs s s' i inv h
  | wake => exact inv_wake scan strs s s' inv h
  | test => exact inv_test scan strs s s' inv h
  | recvPoint => exact inv_recvPoint scan strs s s' inv h
  | recvSync => exact inv_recvSync scan strs s s' inv h

theorem exists_active {α : Type} (ps : List (Parser α))
    (h : 0 < (ps.map Parser.active).sum) :
    ∃ (i : Nat) (q : Parser α), ps[i]? = some q ∧ q.active = 1 := by
  induction ps with
  | nil => simp at h
  | cons p ps ih =>
    by_cases hp : p = Parser.finished
    · subst hp
      have h' : 0 < (ps.map Parser.active).sum := by
        simpa [Parser.active] using h
      obtain ⟨i, q, hq, ha⟩ := ih h'
      exact ⟨i + 1, q, by rw [List.getElem?_cons_succ]; exact hq, ha⟩
    · refine ⟨0, p, List.getElem?_cons_zero, ?_⟩
      cases p with
      | finished => exact absurd rfl hp
      | scanning s => rfl
      | sending q => rfl
      | exiting => rfl

theorem progress_isSome {α : Type} (scan : List Char → Option α)
    (strs : List (List Char)) (s : State α) (inv : Inv scan strs s)
    (h : s.pc ≠ MainPC.loaded) : ∃ a, (step scan s a).isSome = true := by
  cases hpc : s.pc with
  | loaded => exact absurd hpc h
  | reading rest =>
    cases rest with
    | nil =>
      have hw := inv.started.mpr ⟨_, hpc⟩
      exact ⟨Action.startWaiter, by simp only [step, hpc, hw, Option.isSome_some]⟩
    | cons str rest => exact ⟨Action.spawn, by simp only [step, hpc, Option.isSome_some]⟩
  | loopTest => exact ⟨Action.test, by simp only [step, hpc, Option.isSome_some]⟩
  | atSelect =>
    cases hch : s.masspointsChan with
    | cons val rest =>
      exact ⟨Action.recvPoint, by simp only [step, hpc, hch, Option.isSome_some]⟩
    | nil =>
      cases hw : s.waiter with
      | notStarted =>
        obtain ⟨rest, hr⟩ := inv.started.mp hw
        rw [hpc] at hr
        cases hr
      | signalling => exact ⟨Action.recvSync, by simp only [step, hpc, hw, Option.isSome_some]⟩
      | finished =>
        have hr := inv.cleared.mpr hw
        rcases inv.selecting hpc with h1 | h1
        · rw [hr] at h1; cases h1
        · exact absurd hch h1
      | waiting =>
        by_cases hwg : s.wg = 0
        · exact ⟨Action.wake, by simp only [step, hw, hwg, if_true, Option.isSome_some]⟩
        · have hpos : 0 < (s.parsers.map Parser.active).sum := by
            rw [← inv.counter]; omega
          obtain ⟨i, q, hq, ha⟩ := exists_active s.parsers hpos
          cases q with
          | finished => cases ha
          | scanning str => exact ⟨Action.scan i, by simp only [step, hq, Option.isSome_some]⟩
          | sending p =>
            refine ⟨Action.send i, ?_⟩
            simp only [step, hq, hch, List.length_nil]
            rw [if_pos (by decide)]
            rfl
          | exiting =>
            refine ⟨Action.done i, ?_⟩
            simp only [step, hq]
            rw [if_pos (by omega)]
            rfl

theorem progress {α : Type} (scan : List Char → Option α)
    (strs : List (List Char)) (s : State α) (inv : Inv scan strs s)
    (h : s.pc ≠ MainPC.loaded) : ∃ a s', step scan s a = some s' := by
  obtain ⟨a, ha⟩ := progress_isSome scan strs s inv h
  exact ⟨a, Option.isSome_iff_exists.mp ha⟩

theorem terminal_of_loaded {α : Type} (scan : List Char → Option α)
    (strs : List (List Char)) (s : State α) (inv : Inv scan strs s)
    (h : s.pc = MainPC.loaded) (a : Action) : step scan s a = none := by
  have hz := inv_no_active_of_loaded scan strs s inv h
  have hw := inv.cleared.mp (inv.drained h).1
  have hno : ∀ (i : Nat) (q : Parser α), s.parsers[i]? = some q → q.active = 1 → False := by
    intro i q hq ha
    have := active_sum_pos s.parsers i q hq ha
    omega
  cases a with
  | spawn => simp only [step, h]
  | startWaiter => simp only [step, h]
  | scan i =>
    simp only [step]
    split
    · rename_i str hq
      exact (hno i _ hq rfl).elim
    · rfl
  | send i =>
    simp only [step]
    split
    · rename_i p hq
      exact (hno i _ hq rfl).elim
    · rfl
  | done i =>
    simp only [step]
    split
    · rename_i hq
      exact (hno i _ hq rfl).elim
    · rfl
  | wake => simp only [step, hw]
  | test => simp only [step, h]
  | recvPoint => simp only [step, h]
  | recvSync => simp only [step, h]

theorem inv_exec {α : Type} (scan : List Char → Option α) (strs : List (List Char))
    (as : List Action) :
    ∀ s s' : State α, Inv scan strs s → exec scan s as = some s' → Inv scan strs s' := by
  induction as with
  | nil =>
    intro s s' inv h
    simp only [exec, Option.some.injEq] at h
    subst h; exact inv
  | cons a as ih =>
    intro s s' inv h
    simp only [exec, Option.bind_eq_some] at h
    obtain ⟨s1, h1, h2⟩ := h
    exact ih s1 s' (inv_step scan strs s s1 a inv h1) h2

theorem exec_weight {α : Type} (scan : List Char → Option α) (as : List Action) :
    ∀ s s' : State α, exec scan s as = some s' → as.length + s'.weight ≤ s.weight := by
  induction as with
  | nil =>
    intro s s' h
    simp only [exec, Option.some.injEq] at h
    subst h; simp
  | cons a as ih =>
    intro s s' h
    simp only [exec, Option.bind_eq_some] at h
    obtain ⟨s1, h1, h2⟩ := h
    have := ih s1 s' h2
    have := step_weight_lt scan s s1 a h1
    simp only [List.length_cons]
    omega

theorem exec_append {α : Type} (scan : List Char → Option α) (as bs : List Action) :
    ∀ s s1 s2 : State α, exec scan s as = some s1 → exec scan s1 bs = some s2 →
      exec scan s (as ++ bs) = some s2 := by
  induction as with
  | nil =>
    intro s s1 s2 h1 h2
    simp only [exec, Option.some.injEq] at h1
    subst h1; exact h2
  | cons a as ih =>
    intro s s1 s2 h1 h2
    simp only [exec, Option.bind_eq_some] at h1
    obtain ⟨t, ht, h1'⟩ := h1
    simp only [List.cons_append, exec, Option.bind_eq_some]
    exact ⟨t, ht, ih t s1 s2 h1' h2⟩

theorem exists_completion {α : Type} (scan : List Char → Option α)
    (strs : List (List Char)) :
    ∀ (n : Nat) (s : State α), s.weight ≤ n → Inv scan strs s →
      ∃ as s', exec scan s as = some s' ∧ s'.pc = MainPC.loaded := by
  intro n
  induction n with
  | zero =>
    intro s hw inv
    by_cases h : s.pc = MainPC.loaded
    · exact ⟨[], s, rfl, h⟩
    · obtain ⟨a, s1, h1⟩ := progress scan strs s inv h
      have := step_weight_lt scan s s1 a h1
      omega
  | succ n ih =>
    intro s hw inv
    by_cases h : s.pc = MainPC.loaded
    · exact ⟨[], s, rfl, h⟩
    · obtain ⟨a, s1, h1⟩ := progress scan strs s inv h
      have hlt := step_weight_lt scan s s1 a h1
      obtain ⟨as, s', h2, h3⟩ := ih s1 (by omega) (inv_step scan strs s s1 a inv h1)
      exact ⟨a :: as, s', by simp only [exec, h1, Option.some_bind, h2], h3⟩

theorem loaded_result {α : Type} (scan : List Char → Option α)
    (strs : List (List Char)) (s : State α) (inv : Inv scan strs s)
    (h : s.pc = MainPC.loaded) :
    s.masspoints.Perm (strs.filterMap scan) ∧ s.masspointsChan = [] ∧
      s.syncSends = 1 ∧ s.run = false ∧ ∀ p ∈ s.parsers, p = Parser.finished := by
  have hz := inv_no_active_of_loaded scan strs s inv h
  have hd := inv.drained h
  have hw := inv.cleared.mp hd.1
  have hfin : ∀ p ∈ s.parsers, p = Parser.finished := by
    intro p hp
    obtain ⟨i, hi⟩ := List.mem_iff_getElem?.mp hp
    by_contra hne
    have ha : p.active = 1 := by
      cases p with
      | finished => exact absurd rfl hne
      | scanning s => rfl
      | sending q => rfl
      | exiting => rfl
    have := active_sum_pos s.parsers i p hi ha
    omega
  have hpend : (s.parsers.map (Parser.pending scan)).sum = 0 := by
    apply List.sum_eq_zero
    intro x hx
    obtain ⟨p, hp, rfl⟩ := List.mem_map.mp hx
    rw [hfin p hp]; rfl
  refine ⟨?_, hd.2, ?_, hd.1, hfin⟩
  · have c := inv.conserve
    rw [hpend, hd.2, h] at c
    simp only [MainPC.unread, List.filterMap_nil, Multiset.coe_nil, add_zero] at c
    exact Multiset.coe_eq_coe.mp c
  · have := inv.sends
    simpa [hw] using this

theorem exec_sampleSchedule {α : Type} (scan : List Char → Option α) (l1 l2 l3 : List Char)
    (p1 p3 : α) (h1 : scan l1 = some p1) (h2 : scan l2 = none) (h3 : scan l3 = some p3) :
    exec scan (initState [l1, l2, l3]) sampleSchedule = some (sampleFinal p1 p3) := by
  simp [exec, step, initState, sampleSchedule, sampleFinal, Parser.afterScan, h1, h2, h3,
    chanCapacity]

theorem stringToPoint_sample :
    stringToPoint "1:2:3:4\n".toList = some ⟨1, 2, 3, 4⟩ ∧
    stringToPoint "garbage\n".toList = none ∧
    stringToPoint "5:6:7:8\n".toList = some ⟨5, 6, 7, 8⟩ := by
  have h1 : sscanf4 parseDecimal "1:2:3:4\n".toList
      = some ((1, 0), (2, 0), (3, 0), (4, 0)) := by decide
  have h2 : sscanf4 parseDecimal "garbage\n".toList = none := by decide
  have h3 : sscanf4 parseDecimal "5:6:7:8\n".toList
      = some ((5, 0), (6, 0), (7, 0), (8, 0)) := by decide
  have e1 := decimalPoint_small 1 2 3 4
  have e3 := decimalPoint_small 5 6 7 8
  norm_num at e1 e3
  refine ⟨?_, ?_, ?_⟩
  · simp only [stringToPoint, h1, Option.map_some', e1]
  · simp only [stringToPoint, h2, Option.map_none']
  · simp only [stringToPoint, h3, Option.map_some', e3]

/-- C15: started on any strings and run under any schedule (interleaving) of the parse
goroutines, the waiter goroutine and `main`, whatever `Sscanf` makes of each string, the
ingestion cannot run forever (a schedule has at most `6 * n + 7` steps for `n` strings),
is never stuck before `main` leaves the receive loop (some step is enabled, and the
schedule extends to one that leaves the loop), completes at most one send on `syncChan`,
and when `main` has left the loop the send was completed exactly once, `masspointsChan`
is empty, every goroutine has returned, and `masspoints` is a permutation of the points
scanned from the strings, each exactly once. -/
theorem fan_in_loses_nothing {α : Type} (scan : List Char → Option α)
    (strs : List (List Char)) (as : List Action) (s : State α)
    (h : exec scan (initState strs) as = some s) :
    as.length ≤ 6 * strs.length + 7 ∧
    (s.pc ≠ MainPC.loaded → ∃ a s', step scan s a = some s') ∧
    (∃ bs s', exec scan (initState strs) (as ++ bs) = some s' ∧ s'.pc = MainPC.loaded) ∧
    s.syncSends ≤ 1 ∧
    (s.pc = MainPC.loaded →
      s.masspoints.Perm (strs.filterMap scan) ∧ s.masspointsChan = [] ∧
      s.syncSends = 1 ∧ s.run = false ∧ (∀ p ∈ s.parsers, p = Parser.finished) ∧
      ∀ a, step scan s a = none) := by
  have inv := inv_exec scan strs as _ s (inv_init scan strs) h
  refine ⟨?_, ?_, ?_, ?_, ?_⟩
  · have hw := exec_weight scan as _ s h
    have : (initState strs : State α).weight = 6 * strs.length + 7 := by
      simp only [State.weight, initState, Waiter.weight, MainPC.weight, List.map_nil,
        List.sum_nil, List.length_nil]
      omega
    omega
  · exact progress scan strs s inv
  · obtain ⟨bs, s', h1, h2⟩ := exists_completion scan strs s.weight s (le_refl _) inv
    exact ⟨bs, s', exec_append scan as bs _ s s' h h1, h2⟩
  · have := inv.sends
    split at this <;> omega
  · intro hl
    obtain ⟨h1, h2, h3, h4, h5⟩ := loaded_result scan strs s inv hl
    exact ⟨h1, h2, h3, h4, h5, terminal_of_loaded scan strs s inv hl⟩

/-- Instance of `fan_in_loses_nothing`: on the lines `1:2:3:4`, `garbage`, `5:6:7:8` the
schedule `sampleSchedule` ends with `masspoints = [(5,6,7;8), (1,2,3;4)]`, which is a
permutation of the scanned points, with the channel empty and one completion signal. -/
theorem fan_in_loses_nothing_witness :
    exec stringToPoint
      (initState ["1:2:3:4\n".toList, "garbage\n".toList, "5:6:7:8\n".toList])
      sampleSchedule = some (sampleFinal ⟨1, 2, 3, 4⟩ ⟨5, 6, 7, 8⟩) ∧
    (sampleFinal (⟨1, 2, 3, 4⟩ : MassPoint) ⟨5, 6, 7, 8⟩).masspoints.Perm
      (["1:2:3:4\n".toList, "garbage\n".toList, "5:6:7:8\n".toList].filterMap stringToPoint) ∧
    (sampleFinal (⟨1, 2, 3, 4⟩ : MassPoint) ⟨5, 6, 7, 8⟩).masspointsChan = [] ∧
    (sampleFinal (⟨1, 2, 3, 4⟩ : MassPoint) ⟨5, 6, 7, 8⟩).syncSends = 1 :=
  have hexec := exec_sampleSchedule stringToPoint _ _ _ _ _ stringToPoint_sample.1
    stringToPoint_sample.2.1 stringToPoint_sample.2.2
  have hfin := (fan_in_loses_nothing stringToPoint _ sampleSchedule _ hexec).2.2.2.2 rfl
  ⟨hexec, hfin.1, hfin.2.1, hfin.2.2.1⟩

/-! ## Sequential ingestion -/

theorem sequentialScan_succ {β : Type} (conv : List Char → Option β) (fuel : Nat) :
    ∀ (file : List Char) (acc r : List (β × β × β × β)),
      sequentialScan conv fuel file acc = some r →
      sequentialScan conv (fuel + 1) file acc = some r := by
  induction fuel with
  | zero => intro file acc r h; simp [sequentialScan] at h
  | succ n ih =>
    intro file acc r h
    rw [sequentialScan] at h ⊢
    cases he : fscanf4 conv file with
    | mk e unread =>
      rw [he] at h
      cases e with
      | eof => exact h
      | failed => exact ih _ _ _ h
      | values v => exact ih _ _ _ h

theorem sequentialScan_mono {β : Type} (conv : List Char → Option β) (fuel k : Nat)
    (file : List Char) (acc r : List (β × β × β × β))
    (h : sequentialScan conv fuel file acc = some r) :
    sequentialScan conv (k + fuel) file acc = some r := by
  induction k with
  | zero => rw [Nat.zero_add]; exact h
  | succ k ih =>
    rw [Nat.add_right_comm]
    exact sequentialScan_succ conv _ _ _ _ ih

/-- C13 (the code departs from the claim): the line `x1:2:3:4` does not scan as
`%f:%f:%f:%f`, and the concurrent ingestion, which hands each line to `Sscanf` on its
own, loads nothing from the file made of that line, under every schedule.  The
sequential ingestion loads the point `(1, 2, 3)` of mass 4 from the same file: its first
`Fscanf` fails and leaves the file after the `x`, and the second scans the rest of the
line.  On the lines `1:2:3:4`, `garbage`, `5:6:7:8` both load the points `(1,2,3;4)` and
`(5,6,7;8)`. -/
theorem sequential_loads_from_unscannable_line :
    stringToPoint "x1:2:3:4\n".toList = none ∧
    (∀ (as : List Action) (s : State MassPoint),
      exec stringToPoint (initState ["x1:2:3:4\n".toList]) as = some s →
      s.pc = MainPC.loaded → s.masspoints = []) ∧
    fscanf4 parseDecimal "x1:2:3:4\n".toList = (ScanEnd.failed, "1:2:3:4\n".toList) ∧
    (∀ fuel, sequentialLoad (fuel + 3) "x1:2:3:4\n".toList = some [⟨1, 2, 3, 4⟩]) ∧
    (∀ fuel, sequentialLoad (fuel + 10) "1:2:3:4\ngarbage\n5:6:7:8\n".toList
      = some [⟨1, 2, 3, 4⟩, ⟨5, 6, 7, 8⟩]) ∧
    ["1:2:3:4\n".toList, "garbage\n".toList, "5:6:7:8\n".toList].filterMap stringToPoint
      = [⟨1, 2, 3, 4⟩, ⟨5, 6, 7, 8⟩] := by
  have e1 := decimalPoint_small 1 2 3 4
  have e3 := decimalPoint_small 5 6 7 8
  norm_num at e1 e3
  have hx : stringToPoint "x1:2:3:4\n".toList = none := by
    have h : sscanf4 parseDecimal "x1:2:3:4\n".toList = none := by decide
    simp only [stringToPoint, h, Option.map_none']
  refine ⟨hx, ?_, ?_, ?_, ?_, ?_⟩
  · intro as s h hl
    have inv := inv_exec stringToPoint _ as _ s (inv_init stringToPoint _) h
    have hp := (loaded_result stringToPoint _ s inv hl).1
    simp only [List.filterMap_cons, List.filterMap_nil, hx] at hp
    exact List.Perm.eq_nil hp
  · decide
  · intro fuel
    have h : sequentialScan parseDecimal 3 "x1:2:3:4\n".toList []
        = some [((1, 0), (2, 0), (3, 0), (4, 0))] := by decide
    have h' := sequentialScan_mono parseDecimal 3 fuel _ _ _ h
    simp only [sequentialLoad, h', Option.map_some', List.map_cons, List.map_nil, e1]
  · intro fuel
    have h : sequentialScan parseDecimal 10 "1:2:3:4\ngarbage\n5:6:7:8\n".toList []
        = some [((1, 0), (2, 0), (3, 0), (4, 0)), ((5, 0), (6, 0), (7, 0), (8, 0))] := by
      decide
    have h' := sequentialScan_mono parseDecimal 10 fuel _ _ _ h
    simp only [sequentialLoad, h', Option.map_some', List.map_cons, List.map_nil, e1, e3]
  · obtain ⟨h1, h2, h3⟩ := stringToPoint_sample
    simp only [List.filterMap_cons, List.filterMap_nil, h1, h2, h3]

end Barycenter
